import Mathlib

/-!
# Verification of the fastssz `sszgen` code generator

A shallow embedding of the `sszgen` intermediate representation (IR) and of
the code-emission functions of the fastssz repository, together with proofs
about them.  Definitions are transcribed from the Go sources; the doc comment
of each definition names the function it embeds.  The repository exists in
several in-tree revisions that differ only in field naming
(`ref` ↔ `referencePackageAlias`, `c` ↔ `sizeIsVariable`, `s` ↔ `sizeInBytes`,
`m` ↔ `maxSize`, `e` ↔ `elementType`, `o` ↔ `fields`); the embedding uses the
long names throughout.
-/

namespace Sszgen

/-- The SSZ type kind, embedding the Go enumeration `Type`
(`TypeUint` … `TypeReference`). -/
inductive Ty where
  | uint
  | bool
  | bytes
  | bitVector
  | bitList
  | vector
  | list
  | container
  | reference
deriving DecidableEq, Repr

/-- The scalar metadata of the Go struct `Value` (everything except the
recursive `fields` and `elementType` members). -/
structure VMeta where
  fieldName : String := ""
  structName : String := ""
  valueSize : Nat := 0
  sizeInBytes : Nat := 0
  maxSize : Nat := 0
  sizeIsVariable : Bool := false
  noPtr : Bool := false
  referencePackageAlias : String := ""
deriving DecidableEq, Repr

/-- The IR node, embedding the Go struct `Value`: an SSZ kind, scalar
metadata, the container fields and the vector/list element type. -/
inductive Value where
  | mk (ty : Ty) (md : VMeta) (fields : List Value) (elementType : Option Value)

/-- SSZ kind of the node (Go field `sszValueType`). -/
def Value.ty : Value → Ty
  | .mk t _ _ _ => t

/-- Scalar metadata of the node. -/
def Value.md : Value → VMeta
  | .mk _ m _ _ => m

/-- Container fields (Go field `fields`, named `o` in older revisions). -/
def Value.fields : Value → List Value
  | .mk _ _ fs _ => fs

/-- Vector/list element type (Go field `elementType`, older name `e`). -/
def Value.elementType : Value → Option Value
  | .mk _ _ _ e => e

mutual

/-- Node count of an IR value; the termination measure for the emitters.
It ignores the scalar metadata, so updating `fieldName` (which the Go
emitters do in place before recursing) preserves it. -/
def Value.nodes : Value → Nat
  | .mk _ _ fs e => 1 + Value.nodesList fs + Value.nodesOpt e

/-- Node count of a list of IR values. -/
def Value.nodesList : List Value → Nat
  | [] => 0
  | v :: r => Value.nodes v + Value.nodesList r

/-- Node count of an optional IR value. -/
def Value.nodesOpt : Option Value → Nat
  | none => 0
  | some v => Value.nodes v

end

/-- Replace the `fieldName` of a node, embedding the in-place Go mutations
such as `v.elementType.fieldName = v.fieldName + "[ii]"`. -/
def Value.withFieldName (v : Value) (n : String) : Value :=
  match v with
  | .mk t m fs e => .mk t { m with fieldName := n } fs e

theorem Value.nodes_withFieldName (v : Value) (n : String) :
    (v.withFieldName n).nodes = v.nodes := by
  cases v with
  | mk t m fs e => simp [Value.withFieldName, Value.nodes]

theorem Value.nodesList_le_of_mem {f : Value} {fs : List Value} (h : f ∈ fs) :
    f.nodes ≤ Value.nodesList fs := by
  induction fs with
  | nil => cases h
  | cons x r ih =>
    rw [Value.nodesList]
    rcases List.mem_cons.mp h with h1 | h2
    · subst h1
      omega
    · have := ih h2
      omega

theorem Value.nodes_lt_of_mem {f v : Value} (h : f ∈ v.fields) :
    f.nodes < v.nodes := by
  cases v with
  | mk t m fs e =>
    rw [Value.nodes]
    have : f.nodes ≤ Value.nodesList fs := Value.nodesList_le_of_mem h
    omega

theorem Value.nodes_lt_of_elementType {e v : Value} (h : v.elementType = some e) :
    e.nodes < v.nodes := by
  cases v with
  | mk t m fs eo =>
    rw [Value.nodes]
    cases eo with
    | none => simp [Value.elementType] at h
    | some e' =>
      simp only [Value.elementType, Option.some.injEq] at h
      subst h
      rw [Value.nodesOpt]
      omega

mutual

/-- Embeds `Value.isFixed` (src/sszgen/value.go, lines 62-101).  The Go
method dereferences `v.elementType` for vectors; the embedding returns
`false` for the (never constructed) vector without an element type. -/
def Value.isFixed : Value → Bool
  | .mk t m _ e =>
    match t with
    | .vector => Value.isFixedOpt e
    | .bytes => m.sizeInBytes != 0
    | .container => !m.sizeIsVariable
    | .bitList => false
    | .list => false
    | .bitVector => true
    | .uint => true
    | .bool => true
    | .reference => m.sizeInBytes != 0

/-- `isFixed` of the element type of a vector (`v.elementType.isFixed()`). -/
def Value.isFixedOpt : Option Value → Bool
  | none => false
  | some v => v.isFixed

end

theorem Value.nodes_pos (v : Value) : 0 < v.nodes := by
  cases v with
  | mk t m fs e =>
    rw [Value.nodes]
    omega

mutual

/-- Well-formedness of an IR node as the builder produces it: a container
carries the `sizeIsVariable` flag that `parseASTStructType` computes from
its fields, and a vector or list has an element type. -/
def Value.wf : Value → Bool
  | .mk t m fs e =>
    (match t with
     | .container => m.sizeIsVariable == fs.any (fun f => !f.isFixed)
     | .vector => e.isSome
     | .list => e.isSome
     | _ => true)
    && Value.wfList fs && Value.wfOpt e

/-- Well-formedness of a list of IR nodes. -/
def Value.wfList : List Value → Bool
  | [] => true
  | v :: r => v.wf && Value.wfList r

/-- Well-formedness of an optional IR node. -/
def Value.wfOpt : Option Value → Bool
  | none => true
  | some v => v.wf

end

/-- Offset width constant, embedding `bytesPerLengthOffset` (part_000,
line 60). -/
def bytesPerLengthOffset : Nat := 4

/-- The accumulation loop at the end of `parseASTStructType` (part_000,
lines 685-694): walk the retained fields, adding `f.valueSize` for a fixed
field and `bytesPerLengthOffset` for a variable one, marking the container
variable as soon as a variable field is seen. -/
def containerSizeLoop : List Value → Nat → Bool → Nat × Bool
  | [], sz, var => (sz, var)
  | f :: r, sz, var =>
    if f.isFixed then containerSizeLoop r (sz + f.md.valueSize) var
    else containerSizeLoop r (sz + bytesPerLengthOffset) true

/-- Embeds `parseASTStructType` (part_000, lines 650-696) from the point
where the retained fields have been parsed: build the Container IR node
and compute its `valueSize` and `sizeIsVariable` by the loop over
`v.fields`.  Field filtering (unexported, `XXX_`-prefixed and
`ssz:"-"`-tagged fields) happens before this point, so `fields` here are
exactly the retained fields. -/
def parseASTStructType (name : String) (fields : List Value) : Value :=
  let r := containerSizeLoop fields 0 false
  .mk .container { fieldName := name, valueSize := r.1, sizeIsVariable := r.2 } fields none

theorem containerSizeLoop_spec (fs : List Value) (sz : Nat) (var : Bool) :
    containerSizeLoop fs sz var =
      (sz + (fs.map (fun f => if f.isFixed then f.md.valueSize else 4)).sum,
       var || fs.any (fun f => !f.isFixed)) := by
  induction fs generalizing sz var with
  | nil => simp [containerSizeLoop]
  | cons f r ih =>
    by_cases h : f.isFixed
    · simp only [containerSizeLoop, h, if_true, ih, List.map_cons, List.sum_cons,
        List.any_cons, Bool.not_true]
      rw [Prod.mk.injEq]
      constructor
      · omega
      · simp
    · simp only [containerSizeLoop, h, Bool.false_eq_true, if_false, ih, List.map_cons,
        List.sum_cons, List.any_cons, bytesPerLengthOffset]
      rw [Bool.not_eq_true] at h
      simp [h]
      omega

/-- C4, claim statement: the computed `valueSize` is the sum over retained
fields of `valueSize` (fixed) or 4 (variable), and `sizeIsVariable` is true
iff at least one field is variable. -/
theorem parseASTStructType_sizes (name : String) (fields : List Value) :
    (parseASTStructType name fields).md.valueSize =
        (fields.map (fun f => if f.isFixed then f.md.valueSize else 4)).sum ∧
      ((parseASTStructType name fields).md.sizeIsVariable = true ↔
        ∃ f ∈ fields, ¬ f.isFixed = true) := by
  simp only [parseASTStructType, containerSizeLoop_spec, Value.md]
  refine ⟨by simp, ?_⟩
  simp [List.any_eq_true]

/-- The condition of claim C5, stated exactly as the claim words it. -/
def claimFixedCond (v : Value) : Prop :=
  v.ty = .uint ∨ v.ty = .bool ∨ v.ty = .bitVector
  ∨ (v.ty = .bytes ∧ v.md.sizeInBytes ≠ 0)
  ∨ (v.ty = .vector ∧ ∃ e, v.elementType = some e ∧ e.isFixed = true)
  ∨ (v.ty = .container ∧ ∀ f ∈ v.fields, f.isFixed = true)
  ∨ (v.ty = .reference ∧ v.md.sizeInBytes ≠ 0)

/-- C5: for well-formed IR nodes, `isFixed` returns true exactly under the
claim's condition; `BitList` and `List` are never fixed. -/
theorem isFixed_iff_claimFixedCond (v : Value) (hwf : v.wf = true) :
    v.isFixed = true ↔ claimFixedCond v := by
  obtain ⟨t, m, fs, e⟩ := v
  cases t with
  | uint => simp [Value.isFixed, claimFixedCond, Value.ty]
  | bool => simp [Value.isFixed, claimFixedCond, Value.ty]
  | bitVector => simp [Value.isFixed, claimFixedCond, Value.ty]
  | bitList => simp [Value.isFixed, claimFixedCond, Value.ty]
  | list => simp [Value.isFixed, claimFixedCond, Value.ty]
  | bytes => simp [Value.isFixed, claimFixedCond, Value.ty, Value.md]
  | reference => simp [Value.isFixed, claimFixedCond, Value.ty, Value.md]
  | vector =>
    cases e with
    | none => simp [Value.isFixed, Value.isFixedOpt, claimFixedCond, Value.ty, Value.elementType]
    | some e' =>
      simp [Value.isFixed, Value.isFixedOpt, claimFixedCond, Value.ty, Value.elementType]
  | container =>
    rw [Value.wf] at hwf
    simp only [Bool.and_eq_true, beq_iff_eq] at hwf
    obtain ⟨⟨hvar, -⟩, -⟩ := hwf
    simp only [Value.isFixed, claimFixedCond, Value.ty, Value.fields, Value.md]
    rw [hvar]
    simp [List.any_eq_true]

/-- A sample `uint64` field node. -/
def uint64Field : Value := .mk .uint { fieldName := "A", valueSize := 8 } [] none

/-- A sample container built by `parseASTStructType`. -/
def sampleContainer : Value := parseASTStructType "S" [uint64Field]

/-- Witness for C5 at a concrete well-formed container. -/
theorem isFixed_iff_claimFixedCond_witness :
    sampleContainer.wf = true ∧
      (sampleContainer.isFixed = true ↔ claimFixedCond sampleContainer) :=
  ⟨by decide, isFixed_iff_claimFixedCond sampleContainer (by decide)⟩

/-! ## String emitters

The emitters below transcribe the procedural generator functions.  The Go
code executes constant `text/template` strings over a data map and mutates
`fieldName` in place before recursing; the embedding performs the template
substitution directly by string concatenation (whitespace normalised: single
newlines, no indentation) and threads the effective field name as an explicit
`name` argument.  Go brace characters inside emitted code are written with
their escapes. -/

/-- Embeds `Value.objRef` (value.go lines 40-47 / part_000 lines 1252-1259). -/
def Value.objRef (v : Value) : String :=
  if v.md.referencePackageAlias == "" then v.md.structName
  else v.md.referencePackageAlias ++ "." ++ v.md.structName

/-- Embeds `Value.isListElem` (value.go lines 36-38) on the effective field
name: the name ends in `]`. -/
def isListElem (name : String) : Bool :=
  name.endsWith "]"

/-- Embeds `Value.uintVToName` (value.go lines 133-149).  The Go function
panics on other widths; the embedding returns `""` there. -/
def Value.uintVToName (v : Value) : String :=
  match v.md.valueSize with
  | 8 => "Uint64"
  | 4 => "Uint32"
  | 2 => "Uint16"
  | 1 => "Uint8"
  | _ => ""

/-- `valueSize` of an optional element type. -/
def Value.valueSizeOpt : Option Value → Nat
  | none => 0
  | some v => v.md.valueSize

/-- The comparison operator and bound of the `TypeBitList`/`TypeBytes` arm
of `Value.validate` (part_005): `!=` against `sizeInBytes` for fixed bytes,
`>` for a bitlist, and `>` against `maxSize` when `sizeInBytes` is zero
(dynamic bytes). -/
def Value.checkCmpSize (v : Value) : String × Nat :=
  let cmp := if v.ty == Ty.bitList then ">" else "!="
  if v.md.sizeInBytes == 0 then (">", v.md.maxSize) else (cmp, v.md.sizeInBytes)

/-- Embeds `Value.validate` (part_005, `::`-receiver revision, lines
65-125): the bound check emitted before marshalling or hashing a field. -/
def Value.validate (v : Value) (name : String) : String :=
  match v.ty with
  | .bitList | .bytes =>
    if v.md.sizeIsVariable then ""
    else
      let p := v.checkCmpSize
      "if len(::." ++ name ++ ") " ++ p.1 ++ " " ++ toString p.2 ++
        " \x7b\nerr = ssz.ErrBytesLength\nreturn\n\x7d\n"
  | .vector =>
    if v.md.sizeIsVariable then ""
    else
      "if len(::." ++ name ++ ") != " ++ toString v.md.sizeInBytes ++
        " \x7b\nerr = ssz.ErrVectorLength\nreturn\n\x7d\n"
  | .list =>
    "if len(::." ++ name ++ ") > " ++ toString v.md.sizeInBytes ++
      " \x7b\nerr = ssz.ErrListTooBig\nreturn\n\x7d\n"
  | _ => ""

/-- Embeds the `start = false` case of `Value.sizeContainer` (size.go lines
32-52): optional nil-check then `dst += field.SizeSSZ()`. -/
def Value.sizeContainer (v : Value) (dstVar name : String) : String :=
  let check := !isListElem name && !v.md.noPtr
  (if check then
     "if ::." ++ name ++ " == nil \x7b\n::." ++ name ++ " = new(" ++ v.objRef ++
       ")\n\x7d\n"
   else "") ++ dstVar ++ " += ::." ++ name ++ ".SizeSSZ()"

mutual

/-- Embeds `Value.size` (size.go lines 62-106): the statement that adds the
field's encoded size to the variable `dstVar`.  The Go mutation
`v.e.fieldName = v.fieldName + "[ii]"` becomes the recursive `name`
argument. -/
def Value.size : Value → String → String → String
  | v@(.mk t m _ e), dstVar, name =>
    if v.isFixed then
      if t = Ty.container then v.sizeContainer dstVar name
      else if m.valueSize == 1 then dstVar ++ "++"
      else dstVar ++ " += " ++ toString m.valueSize
    else
      match t with
      | .container | .reference => v.sizeContainer dstVar name
      | .bitList | .bytes => dstVar ++ " += len(::." ++ name ++ ")"
      | .list | .vector =>
        if Value.isFixedOpt e then
          dstVar ++ " += len(::." ++ name ++ ") * " ++
            toString (Value.valueSizeOpt e)
        else
          "for ii := 0; ii < len(::." ++ name ++ "); ii++ \x7b\n" ++ dstVar ++
            " += 4\n" ++ Value.sizeOpt e dstVar (name ++ "[ii]") ++ "\n\x7d"
      | _ => ""

/-- `size` on the element type of a vector/list. -/
def Value.sizeOpt : Option Value → String → String → String
  | none, _, _ => ""
  | some v, dstVar, name => v.size dstVar name

end

/-- Embeds the `start = false` case of `Value.marshalContainer` (part_004
lines 141-159): optional nil-check (fixed, non-list-element, non-`noPtr`
structs only) then delegation to the child's `MarshalSSZTo`. -/
def Value.marshalContainerField (v : Value) (name : String) : String :=
  let check := v.isFixed && !isListElem name && !v.md.noPtr
  (if check then
     "if ::." ++ name ++ " == nil \x7b\n::." ++ name ++ " = new(" ++ v.objRef ++
       ")\n\x7d\n"
   else "") ++
    "if dst, err = ::." ++ name ++ ".MarshalSSZTo(dst); err != nil \x7b\nreturn\n\x7d"

mutual

/-- Embeds `Value.marshal` (part_004 lines 38-83), with the bodies of
`marshalList` (lines 85-123, reproduced in both the `TypeList` branch and
the `TypeVector` fallthrough) and `marshalVector` (lines 125-137) inlined;
the Go mutation `v.elementType.fieldName = v.fieldName + "[ii]"` becomes
the recursive `name` argument. -/
def Value.marshal : Value → String → String
  | v@(.mk t m _ e), name =>
    match t with
    | .container | .reference => v.marshalContainerField name
    | .bytes =>
      let nm := if m.sizeIsVariable then name ++ "[:]" else name
      v.validate name ++ "dst = append(dst, ::." ++ nm ++ "...)"
    | .uint =>
      let arg :=
        if m.referencePackageAlias != "" || m.structName != "" then
          "uint64(::." ++ name ++ ")"
        else "::." ++ name
      "dst = ssz.Marshal" ++ v.uintVToName ++ "(dst, " ++ arg ++ ")"
    | .bitList => v.validate name ++ "dst = append(dst, ::." ++ name ++ "...)"
    | .bool => "dst = ssz.MarshalBool(dst, ::." ++ name ++ ")"
    | .vector =>
      if Value.isFixedOpt e then
        -- marshalVector
        v.validate name ++ "for ii := 0; ii < " ++ toString m.sizeInBytes ++
          "; ii++ \x7b\n" ++ Value.marshalOpt e (name ++ "[ii]") ++ "\n\x7d"
      else
        -- fallthrough: marshalList, dynamic-element case
        v.validate name ++ "\x7b\noffset = 4 * len(::." ++ name ++
          ")\nfor ii := 0; ii < len(::." ++ name ++
          "); ii++ \x7b\ndst = ssz.WriteOffset(dst, offset)\n" ++
          Value.sizeOpt e "offset" (name ++ "[ii]") ++
          "\n\x7d\n\x7d\nfor ii := 0; ii < len(::." ++ name ++ "); ii++ \x7b\n" ++
          Value.marshalOpt e (name ++ "[ii]") ++ "\n\x7d"
    | .list =>
      -- marshalList
      if Value.isFixedOpt e then
        v.validate name ++ "for ii := 0; ii < len(::." ++ name ++ "); ii++ \x7b\n" ++
          Value.marshalOpt e (name ++ "[ii]") ++ "\n\x7d"
      else
        v.validate name ++ "\x7b\noffset = 4 * len(::." ++ name ++
          ")\nfor ii := 0; ii < len(::." ++ name ++
          "); ii++ \x7b\ndst = ssz.WriteOffset(dst, offset)\n" ++
          Value.sizeOpt e "offset" (name ++ "[ii]") ++
          "\n\x7d\n\x7d\nfor ii := 0; ii < len(::." ++ name ++ "); ii++ \x7b\n" ++
          Value.marshalOpt e (name ++ "[ii]") ++ "\n\x7d"
    | _ => ""

/-- `marshal` on the element type of a vector/list. -/
def Value.marshalOpt : Option Value → String → String
  | none, _ => ""
  | some v, name => v.marshal name

end

/-- Phase-A loop of `marshalContainer` with `start = true` (part_004 lines
162-176): walk the fields in declaration order; a fixed field emits its
encoding, a variable field emits the offset write followed by the offset
increment statement.  The Go loop also advances a local `offset`
accumulator that never reaches the emitted text; it is retained here. -/
def marshalPhaseALoop : List Value → Nat → Nat → List String
  | [], _, _ => []
  | i :: r, indx, offset =>
    if i.isFixed then
      ("// Field (" ++ toString indx ++ ") '" ++ i.md.fieldName ++ "'\n" ++
        i.marshal i.md.fieldName ++ "\n") :: marshalPhaseALoop r (indx + 1) offset
    else
      ("// Offset (" ++ toString indx ++ ") '" ++ i.md.fieldName ++
        "'\ndst = ssz.WriteOffset(dst, offset)\n" ++
        i.size "offset" i.md.fieldName ++ "\n")
        :: marshalPhaseALoop r (indx + 1) (offset + i.md.valueSize)

/-- Phase-B loop of `marshalContainer` with `start = true` (part_004 lines
178-183): walk the fields again, emitting the full encoding of each
variable field. -/
def marshalPhaseBLoop : List Value → Nat → List String
  | [], _ => []
  | i :: r, indx =>
    if i.isFixed then marshalPhaseBLoop r (indx + 1)
    else
      ("// Field (" ++ toString indx ++ ") '" ++ i.md.fieldName ++ "'\n" ++
        i.marshal i.md.fieldName ++ "\n") :: marshalPhaseBLoop r (indx + 1)

/-- Embeds the `start = true` case of `Value.marshalContainer` (part_004
lines 139-185): both loops joined by blank-line separators. -/
def Value.marshalContainer (v : Value) : String :=
  String.intercalate "\n"
    (marshalPhaseALoop v.fields 0 v.md.valueSize ++ marshalPhaseBLoop v.fields 0)

/-- Replace every occurrence of the `::` placeholder in a character list
with the receiver name, left to right (Go `strings.Replace(str, "::", sig,
-1)`). -/
def replacePlaceholder (recv : String) : List Char → List Char
  | [] => []
  | ':' :: ':' :: rest => recv.toList ++ replacePlaceholder recv rest
  | c :: rest => c :: replacePlaceholder recv rest

/-- Embeds `appendObjSignature` (part_000 lines 375-382): replace the `::`
receiver placeholder with the lower-cased first letter of the object's
name. -/
def appendObjSignature (str : String) (v : Value) : String :=
  let sig := (String.mk [v.md.fieldName.toList.headD 'x']).toLower
  String.mk (replacePlaceholder sig str.toList)

/-- The constant template of `env.marshal` (part_004 lines 12-23) with its
three holes (`name`, `offset`, `marshal`) substituted. -/
def marshalTmpl (name offsetStr body : String) : String :=
  "// MarshalSSZ ssz marshals the " ++ name ++ " object\nfunc (:: *" ++ name ++
    ") MarshalSSZ() ([]byte, error) \x7b\nreturn ssz.MarshalSSZ(::)\n\x7d\n\n" ++
    "// MarshalSSZTo ssz marshals the " ++ name ++
    " object to a target array\nfunc (:: *" ++ name ++
    ") MarshalSSZTo(buf []byte) (dst []byte, err error) \x7b\ndst = buf\n" ++
    offsetStr ++ "\n" ++ body ++ "\nreturn\n\x7d"

/-- Embeds `env.marshal` (part_004 lines 11-36): the emitted
`MarshalSSZ`/`MarshalSSZTo` method pair for a target object. -/
def envMarshal (name : String) (v : Value) : String :=
  let offsetStr :=
    if !v.isFixed then "offset := int(" ++ toString v.md.valueSize ++ ")\n" else ""
  appendObjSignature (marshalTmpl name offsetStr v.marshalContainer) v

/-- Phase A exactly as claim C1 words it: walk the fields in declaration
order; a fixed field contributes its direct encoding, a variable field a
`ssz.WriteOffset(dst, offset)` call followed by the increment of `offset`
by the field's size expression. -/
def claimPhaseA (fields : List Value) : List String :=
  fields.enum.map fun p =>
    if p.2.isFixed then
      "// Field (" ++ toString p.1 ++ ") '" ++ p.2.md.fieldName ++ "'\n" ++
        p.2.marshal p.2.md.fieldName ++ "\n"
    else
      "// Offset (" ++ toString p.1 ++ ") '" ++ p.2.md.fieldName ++
        "'\ndst = ssz.WriteOffset(dst, offset)\n" ++
        p.2.size "offset" p.2.md.fieldName ++ "\n"

/-- Phase B exactly as claim C1 words it: walk the fields again and emit
the full encoding of each variable field. -/
def claimPhaseB (fields : List Value) : List String :=
  fields.enum.filterMap fun p =>
    if p.2.isFixed then none
    else
      some ("// Field (" ++ toString p.1 ++ ") '" ++ p.2.md.fieldName ++ "'\n" ++
        p.2.marshal p.2.md.fieldName ++ "\n")

/-- The `offset` initialisation as claim C1 words it: present exactly when
the container is variable, starting at the container's `valueSize`. -/
def claimOffsetInit (v : Value) : String :=
  if v.isFixed then "" else "offset := int(" ++ toString v.md.valueSize ++ ")\n"

theorem marshalPhaseALoop_enumFrom (fs : List Value) (indx offset : Nat) :
    marshalPhaseALoop fs indx offset =
      (List.enumFrom indx fs).map (fun p =>
        if p.2.isFixed then
          "// Field (" ++ toString p.1 ++ ") '" ++ p.2.md.fieldName ++ "'\n" ++
            p.2.marshal p.2.md.fieldName ++ "\n"
        else
          "// Offset (" ++ toString p.1 ++ ") '" ++ p.2.md.fieldName ++
            "'\ndst = ssz.WriteOffset(dst, offset)\n" ++
            p.2.size "offset" p.2.md.fieldName ++ "\n") := by
  induction fs generalizing indx offset with
  | nil => simp [marshalPhaseALoop]
  | cons f r ih =>
    by_cases h : f.isFixed <;>
      simp [marshalPhaseALoop, h, List.enumFrom, ih]

theorem marshalPhaseBLoop_enumFrom (fs : List Value) (indx : Nat) :
    marshalPhaseBLoop fs indx =
      (List.enumFrom indx fs).filterMap (fun p =>
        if p.2.isFixed then none
        else
          some ("// Field (" ++ toString p.1 ++ ") '" ++ p.2.md.fieldName ++ "'\n" ++
            p.2.marshal p.2.md.fieldName ++ "\n")) := by
  induction fs generalizing indx with
  | nil => simp [marshalPhaseBLoop]
  | cons f r ih =>
    by_cases h : f.isFixed <;>
      simp [marshalPhaseBLoop, h, List.enumFrom, ih]

/-- C1: the emitted `MarshalSSZTo` body is two-phase.  For every target
object, `env.marshal` produces the method template whose body is: the
`offset` initialisation to `valueSize` exactly when the container is
variable, then the phase-A walk (fixed fields encode directly; variable
fields emit `ssz.WriteOffset(dst, offset)` followed by the `offset`
increment by the field's size expression), then the phase-B walk emitting
every variable field's full encoding. -/
theorem envMarshal_two_phase (name : String) (v : Value) :
    envMarshal name v =
      appendObjSignature
        (marshalTmpl name (claimOffsetInit v)
          (String.intercalate "\n" (claimPhaseA v.fields ++ claimPhaseB v.fields))) v := by
  have hA : marshalPhaseALoop v.fields 0 v.md.valueSize = claimPhaseA v.fields := by
    rw [marshalPhaseALoop_enumFrom, claimPhaseA, List.enum]
  have hB : marshalPhaseBLoop v.fields 0 = claimPhaseB v.fields := by
    rw [marshalPhaseBLoop_enumFrom, claimPhaseB, List.enum]
  have hoff : (if !v.isFixed then "offset := int(" ++ toString v.md.valueSize ++ ")\n"
      else "") = claimOffsetInit v := by
    rw [claimOffsetInit]
    by_cases h : v.isFixed <;> simp [h]
  rw [envMarshal, Value.marshalContainer, hA, hB, hoff]

/-! ## Hash-tree-root emission (src/sszgen/hash.go) -/

/-- The 32-byte Merkle chunk (`chunkSize`, hash.go line 10). -/
def chunkSize : Nat := 32

/-- Embeds `nextChunkAlignment` (hash.go lines 33-39). -/
def nextChunkAlignment (size : Nat) : Nat :=
  if size % chunkSize == 0 then size
  else (size / chunkSize) * chunkSize + chunkSize

/-- The data `hashRootsInner` computes before executing its template:
padding declaration and copy, loop variable and append call. -/
structure HashInnerParts where
  padDeclare : String
  padCopy : String
  subName : String
  appendFn : String
  elemSize : Nat
deriving DecidableEq, Repr

/-- Embeds `hashRootsInner` (src/sszgen/hash.go lines 41-91) up to the
final template execution: derive the padding fragments (emitted only when
the element is a byte slice with declared length — `sizeIsVariable` false —
whose length is not chunk-aligned), the loop variable and the append
function.  The Go function reads only the element type (`v.e`). -/
def Value.hashRootsInnerParts (v : Value) (elem : Ty) : HashInnerParts :=
  match v.elementType with
  | none => ⟨"", "", "i", "", 0⟩
  | some e =>
    let subName := if e.md.sizeIsVariable then "i[:]" else "i"
    let s := e.md.sizeInBytes
    let p :=
      if !e.md.sizeIsVariable && elem == Ty.bytes then
        let paddedSize := nextChunkAlignment s
        if paddedSize != s then
          ("padded = make([]byte, " ++ toString paddedSize ++ ")\n",
           "\ncopy(padded[0:" ++ toString s ++ "], i[0:" ++ toString s ++ "])",
           "padded")
        else ("", "", subName)
      else ("", "", subName)
    let appendFn := if elem == Ty.bytes then "Append" else "AppendUint64"
    ⟨p.1, p.2.1, p.2.2, appendFn, s⟩

/-- The inner loop body `hashRootsInner` assembles from its parts (hash.go
lines 47-53 and 72-90, whitespace normalised). -/
def Value.hashRootsInner (v : Value) (elem : Ty) : String :=
  let p := v.hashRootsInnerParts elem
  p.padDeclare ++ "if len(i) != " ++ toString p.elemSize ++
    " \x7b\nerr = ssz.ErrBytesLength\nreturn\n\x7d" ++ p.padCopy ++
    "\nhh." ++ p.appendFn ++ "(" ++ p.subName ++ ")"

/-- A Vector-of-byte-sequences IR node as `parseASTFieldType` builds it for
two-dimensional byte storage (part_000 lines 767-775): outer count `n`,
element byte length `s`; `elemInline` is the element's `sizeIsVariable`
flag, true for an inline `[n][s]byte` array literal and false for a
length-declared byte slice. -/
def vecOfBytes (n s : Nat) (elemInline : Bool) : Value :=
  .mk .vector { valueSize := n * s, sizeInBytes := n, sizeIsVariable := elemInline } []
    (some (.mk .bytes { sizeIsVariable := elemInline, valueSize := s, sizeInBytes := s }
      [] none))

/-- Counterexample to C6: for a Vector of inline `[20]byte` elements the
element's fixed length 20 is not a multiple of the 32-byte chunk size, yet
the emitted hasher body appends `i[:]` directly with no zero-padding. -/
theorem hashRootsInner_no_padding_inline :
    (20 % 32 ≠ 0) ∧
      ((vecOfBytes 16 20 true).hashRootsInnerParts .bytes).padDeclare = "" ∧
      ((vecOfBytes 16 20 true).hashRootsInnerParts .bytes).padCopy = "" ∧
      (vecOfBytes 16 20 true).hashRootsInner .bytes =
        "if len(i) != 20 \x7b\nerr = ssz.ErrBytesLength\nreturn\n\x7d\nhh.Append(i[:])" := by
  decide

/-- C6 as amended: in the emitted hasher body for a Vector of fixed-size
byte elements, the zero-padding fragments appear exactly when the element
is a length-declared byte slice (`sizeIsVariable` false) whose byte length
is not a multiple of 32; inline byte-array elements are appended directly. -/
theorem hashRootsInner_padding_condition (n s : Nat) (b : Bool) :
    ((vecOfBytes n s b).hashRootsInnerParts .bytes).padDeclare =
        (if b = false ∧ s % 32 ≠ 0 then
          "padded = make([]byte, " ++ toString (nextChunkAlignment s) ++ ")\n"
         else "") ∧
      ((vecOfBytes n s b).hashRootsInnerParts .bytes).padCopy =
        (if b = false ∧ s % 32 ≠ 0 then
          "\ncopy(padded[0:" ++ toString s ++ "], i[0:" ++ toString s ++ "])"
         else "") ∧
      ((vecOfBytes n s b).hashRootsInnerParts .bytes).subName =
        (if b = false ∧ s % 32 ≠ 0 then "padded" else if b then "i[:]" else "i") := by
  have hd := Nat.div_add_mod s 32
  cases b with
  | false =>
    by_cases hm : s % 32 = 0
    · have hal : nextChunkAlignment s = s := by
        simp [nextChunkAlignment, chunkSize, hm]
      simp [vecOfBytes, Value.hashRootsInnerParts, Value.elementType, Value.md, hal, hm]
    · have hal : nextChunkAlignment s ≠ s := by
        simp only [nextChunkAlignment, chunkSize]
        rw [if_neg (by simpa using hm)]
        omega
      simp [vecOfBytes, Value.hashRootsInnerParts, Value.elementType, Value.md, hal, hm]
  | true =>
    simp [vecOfBytes, Value.hashRootsInnerParts, Value.elementType, Value.md]

/-! ## The BitList bound check (claim C7) -/

/-- Embeds the BitList construction of `parseASTFieldType` (part_000 lines
746-754): a byte slice tagged `ssz:"bitlist"` yields
`Value{sszValueType: TypeBitList, maxSize: max, sizeInBytes: max}` where
`max` is the `ssz-max` annotation value (a bit count). -/
def mkBitList (maxBits : Nat) : Value :=
  .mk .bitList { maxSize := maxBits, sizeInBytes := maxBits } [] none

/-- Semantics of the emitted length bound check `if len(f) <cmp> <size>`:
the lengths it rejects. -/
def checkRejects (p : String × Nat) (l : Nat) : Bool :=
  if p.1 == ">" then decide (l > p.2) else decide (l ≠ p.2)

/-- Counterexample to C7: for a BitList with `ssz-max` 8 the claim's bound
is `⌈8/8⌉+1 = 2`, so a field of byte length 5 should be rejected; the
emitted check `len > 8` accepts it. -/
theorem bitListCheck_not_ceil_bound :
    (mkBitList 8).validate "Bits" =
        "if len(::.Bits) > 8 \x7b\nerr = ssz.ErrBytesLength\nreturn\n\x7d\n" ∧
      (5 : Nat) > (8 + 7) / 8 + 1 ∧
      checkRejects ((mkBitList 8).checkCmpSize) 5 = false := by
  decide

/-- C7 as amended: the bound check emitted for a BitList field rejects the
field exactly when its byte length exceeds the raw `ssz-max` value
(`maxBits` itself, not `⌈maxBits/8⌉+1`). -/
theorem bitListCheck_bound (maxBits l : Nat) (name : String) :
    (mkBitList maxBits).validate name =
        "if len(::." ++ name ++ ") > " ++ toString maxBits ++
          " \x7b\nerr = ssz.ErrBytesLength\nreturn\n\x7d\n" ∧
      (checkRejects ((mkBitList maxBits).checkCmpSize) l = true ↔ l > maxBits) := by
  refine ⟨?_, ?_⟩
  · by_cases hm : maxBits = 0 <;>
      simp [mkBitList, Value.validate, Value.checkCmpSize, Value.ty, Value.md, hm,
        String.append_assoc]
  · by_cases hm : maxBits = 0 <;>
      simp [mkBitList, Value.checkCmpSize, Value.ty, Value.md, hm, checkRejects]

/-! ## The two emitter styles on a BitList field (claim C8) -/

/-- Embeds `Value.validate` in the template-struct revision (part_005 lines
3-64), which renders the receiver name `recv` where the procedural revision
renders the `::` placeholder; otherwise identical. -/
def Value.validateR (v : Value) (recv name : String) : String :=
  match v.ty with
  | .bitList | .bytes =>
    if v.md.sizeIsVariable then ""
    else
      let p := v.checkCmpSize
      "if len(" ++ recv ++ "." ++ name ++ ") " ++ p.1 ++ " " ++ toString p.2 ++
        " \x7b\nerr = ssz.ErrBytesLength\nreturn\n\x7d\n"
  | .vector =>
    if v.md.sizeIsVariable then ""
    else
      "if len(" ++ recv ++ "." ++ name ++ ") != " ++ toString v.md.sizeInBytes ++
        " \x7b\nerr = ssz.ErrVectorLength\nreturn\n\x7d\n"
  | .list =>
    "if len(" ++ recv ++ "." ++ name ++ ") > " ++ toString v.md.sizeInBytes ++
      " \x7b\nerr = ssz.ErrListTooBig\nreturn\n\x7d\n"
  | _ => ""

/-- Embeds the `TypeBitList` arm of `Value.MarshalValue` in the
template-struct emitter (part_003 lines 243-244), exactly as written:
`fmt.Sprintf("%sdst = append(dst, %s.%s...)", v.ReceiverName(),
v.validate(), v.fieldName)` — the receiver name fills the first slot and
the bound check the second. -/
def Value.MarshalValueBitList (v : Value) (recv name : String) : String :=
  recv ++ "dst = append(dst, " ++ v.validateR recv name ++ "." ++ name ++ "...)"

/-- Substitute a receiver name for the procedural emitters' `::`
placeholder (the post-processing step of `appendObjSignature`). -/
def replaceRecv (recv s : String) : String :=
  String.mk (replacePlaceholder recv s.toList)

/-- A BitList field named `Bits` with `ssz-max` 8. -/
def bitsField : Value :=
  .mk .bitList { fieldName := "Bits", maxSize := 8, sizeInBytes := 8 } [] none

/-- C8 evaluated at the failing input: on a BitList field the procedural
emitter produces the bound check followed by the append, while the
template-struct emitter's transposed `Sprintf` arguments put the receiver
name before `dst` and the bound check in the receiver position — the two
styles do not agree. -/
theorem marshal_styles_diverge_on_bitlist :
    replaceRecv "f" (bitsField.marshal "Bits") =
        "if len(f.Bits) > 8 \x7b\nerr = ssz.ErrBytesLength\nreturn\n\x7d\n" ++
          "dst = append(dst, f.Bits...)" ∧
      bitsField.MarshalValueBitList "f" "Bits" =
        "fdst = append(dst, if len(f.Bits) > 8 \x7b\nerr = ssz.ErrBytesLength\nreturn\n\x7d\n" ++
          ".Bits...)" ∧
      replaceRecv "f" (bitsField.marshal "Bits") ≠
        bitsField.MarshalValueBitList "f" "Bits" := by
  decide

/-! ## Tag lookup (claim C10) -/

/-- Remove every leading and trailing occurrence of `c`, embedding Go's
`strings.Trim(str, cutset)` for a one-character cutset. -/
def trimAll (c : Char) (s : String) : String :=
  String.mk (((s.toList.dropWhile (· == c)).reverse.dropWhile (· == c)).reverse)

/-- Split a character list at every occurrence of `c`, embedding Go's
`strings.Split` for a one-character separator (an empty input yields one
empty field, adjacent separators yield empty fields). -/
def splitChar (c : Char) : List Char → List (List Char)
  | [] => [[]]
  | x :: rest =>
    if x == c then [] :: splitChar c rest
    else
      match splitChar c rest with
      | [] => [[x]]
      | g :: gs => (x :: g) :: gs

/-- `strings.Split` on a string, one-character separator. -/
def splitOnChar (c : Char) (s : String) : List String :=
  (splitChar c s.toList).map String.mk

/-- `strings.HasPrefix`. -/
def hasPrefixStr (s pre : String) : Bool :=
  pre.toList.isPrefixOf s.toList

/-- `strings.HasSuffix`. -/
def hasSuffixStr (s post : String) : Bool :=
  post.toList.reverse.isPrefixOf s.toList.reverse

/-- The token loop of `getTags` (part_000 lines 986-1005): inspect the
whitespace-separated tokens left to right; a token that does not split on
`:` into exactly two parts, or whose value part is not quote-delimited,
stops the scan with "not present"; a well-formed token with another key is
skipped; a well-formed token with the requested key returns its value with
the quotes trimmed. -/
def getTagsLoop (field : String) : List String → Option String
  | [] => none
  | tag :: rest =>
    match splitOnChar ':' tag with
    | [tagName, vals] =>
      if hasPrefixStr vals "\"" && hasSuffixStr vals "\"" then
        if tagName == field then some (trimAll '"' vals)
        else getTagsLoop field rest
      else none
    | _ => none

/-- Embeds `getTags` (part_000 lines 982-1007): trim the backtick quotes,
split on spaces and scan. -/
def getTags (str field : String) : Option String :=
  getTagsLoop field (splitOnChar ' ' (trimAll (Char.ofNat 96) str))

/-- A token of the exact form `key:"value"` as the `getTags` loop checks
it: splitting on `:` yields exactly two parts and the second is
quote-delimited. -/
def wellFormedToken (tok : String) : Bool :=
  match splitOnChar ':' tok with
  | [_, vals] => hasPrefixStr vals "\"" && hasSuffixStr vals "\""
  | _ => false

/-- The key of a token (the part before the first `:`). -/
def tokKey (tok : String) : String :=
  (splitOnChar ':' tok).headD ""

theorem getTagsLoop_malformed (field : String) (pre : List String) (t : String)
    (post : List String)
    (hpre : ∀ p ∈ pre, wellFormedToken p = true ∧ tokKey p ≠ field)
    (ht : wellFormedToken t = false) :
    getTagsLoop field (pre ++ t :: post) = none := by
  induction pre with
  | nil =>
    simp only [List.nil_append]
    rw [getTagsLoop]
    rw [wellFormedToken] at ht
    cases hm : splitOnChar ':' t with
    | nil => rfl
    | cons a as =>
      cases as with
      | nil => rfl
      | cons b bs =>
        cases bs with
        | nil =>
          rw [hm] at ht
          simp only at ht
          simp [ht]
        | cons c cs => rfl
  | cons p r ih =>
    obtain ⟨hwf, hkey⟩ := hpre p (List.mem_cons_self p r)
    have hrest : ∀ q ∈ r, wellFormedToken q = true ∧ tokKey q ≠ field := by
      intro q hq
      exact hpre q (List.mem_cons_of_mem p hq)
    rw [wellFormedToken] at hwf
    simp only [List.cons_append]
    rw [getTagsLoop]
    cases hm : splitOnChar ':' p with
    | nil =>
      rw [hm] at hwf
    | cons a as =>
      cases as with
      | nil =>
        rw [hm] at hwf
      | cons b bs =>
        cases bs with
        | cons c cs =>
          rw [hm] at hwf
        | nil =>
          rw [hm] at hwf
          simp only at hwf
          rw [tokKey, hm] at hkey
          simp only [List.headD_cons] at hkey
          simp only [hwf, if_true]
          rw [if_neg (by simpa using hkey)]
          exact ih hrest

/-- C10: `getTags` scans the whitespace-separated tokens left to right and
reports the key as not present as soon as it meets any token that is not
exactly of the form `key:"value"`, even when a well-formed token matching
the requested key occurs later in the same tag string. -/
theorem getTags_stops_at_malformed (str field : String) (pre : List String)
    (t : String) (post : List String)
    (hsplit : splitOnChar ' ' (trimAll (Char.ofNat 96) str) = pre ++ t :: post)
    (hpre : ∀ p ∈ pre, wellFormedToken p = true ∧ tokKey p ≠ field)
    (ht : wellFormedToken t = false) :
    getTags str field = none := by
  rw [getTags, hsplit]
  exact getTagsLoop_malformed field pre t post hpre ht

/-- Witness for C10: in `bad ssz-max:"16"` the leading malformed token
`bad` makes the lookup of `ssz-max` fail even though a well-formed
matching token follows. -/
theorem getTags_stops_at_malformed_witness :
    getTags "bad ssz-max:\"16\"" "ssz-max" = none ∧
      wellFormedToken "ssz-max:\"16\"" = true ∧
      tokKey "ssz-max:\"16\"" = "ssz-max" :=
  ⟨getTags_stops_at_malformed "bad ssz-max:\"16\"" "ssz-max" [] "bad" ["ssz-max:\"16\""]
      (by decide) (by intro p hp; cases hp) (by decide),
    by decide, by decide⟩

/-! ## Combined-output mode (claim C9) -/

/-- Embeds `Value.isBasicType` (value.go lines 129-131). -/
def Value.isBasicType (v : Value) : Bool :=
  v.ty == Ty.uint || v.ty == Ty.bool || v.ty == Ty.bytes

/-- The object-selection loop of `env.print` (part_000 lines 326-352):
keep, in declaration order, the structs of `order` that have an IR object,
skipping fixed basic-type aliases (they are encoded inline in their parent
and get no methods).  The IR table `e.objs` is modelled as an association
list. -/
def selectObjs (objs : List (String × Value)) (order : List String) : List Value :=
  order.filterMap fun name =>
    match objs.lookup name with
    | none => none
    | some obj => if obj.isFixed && obj.isBasicType then none else some obj

/-- The outcome flag of `env.print` (part_000 lines 353-356): printing
succeeds iff at least one object was selected. -/
def printOk (objs : List (String × Value)) (order : List String) : Bool :=
  !(selectObjs objs order).isEmpty

/-- The order concatenation of `generateOutputEncodings` (part_000 lines
231-240): all per-file orders, in lexicographic file-name order. -/
def combinedOrder (order : List (String × List String)) : List String :=
  (((order.map Prod.fst).insertionSort (· ≤ ·)).map
    (fun k => (order.lookup k).getD [])).flatten

/-- Embeds `generateOutputEncodings` (part_000 lines 228-251): combined
mode prints every target once into the single named output; a failed print
(`!ok`) yields a nil map.  The rendered file text is abstracted to the
list of selected objects. -/
def generateOutputEncodingsM (objs : List (String × Value))
    (order : List (String × List String)) (output : String) :
    Option (List (String × List Value)) :=
  if printOk objs (combinedOrder order) then
    some [(output, selectObjs objs (combinedOrder order))]
  else none

/-- The output-writing tail of `Generate` (part_000 lines 89-117) in
combined-output mode: a nil result from `generateOutputEncodings` becomes
the error `No files to generate` (lines 100-103); otherwise the named
files are written. -/
def GenerateCombined (objs : List (String × Value))
    (order : List (String × List String)) (output : String) :
    Except String (List (String × List Value)) :=
  match generateOutputEncodingsM objs order output with
  | none => Except.error "No files to generate"
  | some out => Except.ok out

/-- A fixed basic-type alias: selected out by `env.print`, so a file whose
only struct it is produces no target. -/
def aliasObj : Value :=
  .mk .uint { fieldName := "Alias", structName := "Alias", valueSize := 8 } [] none

/-- Counterexample to C9: in combined mode with no eligible target (the
only struct is a fixed basic-type alias) the run reports the error
`No files to generate` instead of completing without error. -/
theorem generateCombined_no_targets_errors :
    GenerateCombined [("Alias", aliasObj)] [("f.go", ["Alias"])] "out.go" =
      Except.error "No files to generate" := by
  rfl

/-- C9 as amended: in combined-output mode, when the aggregate of all
input files produces no eligible target, the generator writes no output
file and the run stops with the error `No files to generate`. -/
theorem generateCombined_no_target_reports (objs : List (String × Value))
    (order : List (String × List String)) (output : String)
    (h : selectObjs objs (combinedOrder order) = []) :
    GenerateCombined objs order output = Except.error "No files to generate" := by
  rw [GenerateCombined, generateOutputEncodingsM, printOk, h]
  rfl

/-- Witness for C9's amended theorem at the concrete alias-only input. -/
theorem generateCombined_no_target_reports_witness :
    GenerateCombined [("Alias", aliasObj)] [("f.go", ["Alias"])] "combined.go" =
      Except.error "No files to generate" :=
  generateCombined_no_target_reports [("Alias", aliasObj)] [("f.go", ["Alias"])]
    "combined.go" (by rfl)

/-! ## Runtime semantics of the emitted encoders and decoders (claims C2, C3)

The generated methods run against the fastssz runtime (the repository's
root `ssz` package, which is not among the provided sources); its helpers
are modelled from the spec where marked.  `Schema` mirrors the IR kinds
covered by the model and the encode/decode functions below transcribe,
statement by statement, the code the emitters of part_004 (marshal) and
part_001 (unmarshal) generate for those kinds.  Bytes are naturals below
256; machine integers are naturals with explicit width bounds. -/

/-- The IR kinds covered by the runtime model: uints of `w` bytes, bools,
fixed bytes (`ssz-size n`), dynamic bytes (`ssz-max`), lists of fixed
uints (`ssz-max` count), bitlists (`ssz-max` bit count), vectors of `n`
elements (`ssz-size` count, `parseASTFieldType` part_000 line 787), lists
of arbitrary elements (`ssz-max` count, line 799), and containers.
`TypeBitVector` is absent because the builder never constructs it (a
`Bitvector` selector becomes `TypeBytes`, part_000 lines 837-843), and
`TypeReference` is absent because its methods are external code the
generator does not emit. -/
inductive Schema where
  | uint (w : Nat)
  | bool
  | bytesF (n : Nat)
  | bytesD (maxSize : Nat)
  | listU (w maxCount : Nat)
  | bitList (maxBits : Nat)
  | vec (count : Nat) (elem : Schema)
  | listE (maxCount : Nat) (elem : Schema)
  | container (fields : List Schema)

/-- Runtime values of the modelled kinds.  A bitlist value is its byte
representation (`go-bitfield` stores the bits with the sentinel in a byte
slice); vector and list values are their element sequences. -/
inductive SVal where
  | uint (v : Nat)
  | bool (b : Bool)
  | bytes (bs : List Nat)
  | listU (vs : List Nat)
  | vals (es : List SVal)
  | container (fs : List SVal)

mutual

/-- `isFixed` on schemas (spec invariant 2, mirroring `Value.isFixed`):
uints and bools and declared-length bytes are fixed; dynamic bytes and
lists are variable; a container is fixed iff all its fields are. -/
def Schema.isFixedS : Schema → Bool
  | .uint _ => true
  | .bool => true
  | .bytesF _ => true
  | .bytesD _ => false
  | .listU _ _ => false
  | .bitList _ => false
  | .vec _ e => e.isFixedS
  | .listE _ _ => false
  | .container fs => Schema.allFixed fs

/-- All fields fixed. -/
def Schema.allFixed : List Schema → Bool
  | [] => true
  | f :: r => f.isFixedS && Schema.allFixed r

end

mutual

/-- `valueSize` on schemas: the fixed byte size (0 for variable kinds),
mirroring `parseASTStructType`/`parseASTFieldType`. -/
def Schema.valueSize : Schema → Nat
  | .uint w => w
  | .bool => 1
  | .bytesF n => n
  | .bytesD _ => 0
  | .listU _ _ => 0
  | .bitList _ => 0
  | .vec n e => if e.isFixedS then n * e.valueSize else 0
  | .listE _ _ => 0
  | .container fs => Schema.fixedSum fs

/-- A container's fixed part: `valueSize` for fixed fields, 4 (the offset
width) for variable ones — the loop of `parseASTStructType`. -/
def Schema.fixedSum : List Schema → Nat
  | [] => 0
  | f :: r => (if f.isFixedS then f.valueSize else 4) + Schema.fixedSum r

end

mutual

/-- Structural side conditions of the model: fixed element sizes of lists
are positive (the Go element types `uint8..uint64` have `valueSize ≥ 1`,
and the builder rejects byte-matrix elements of size 0), so the emitted
`DivideInt2` count recovery is meaningful. -/
def Schema.swf : Schema → Bool
  | .uint _ => true
  | .bool => true
  | .bytesF _ => true
  | .bytesD _ => true
  | .listU w _ => 0 < w
  | .bitList _ => true
  | .vec _ e => e.swf
  | .listE _ e => e.swf && (!e.isFixedS || decide (0 < e.valueSize))
  | .container fs => Schema.swfList fs

/-- `swf` on field lists. -/
def Schema.swfList : List Schema → Bool
  | [] => true
  | f :: r => f.swf && Schema.swfList r

end

/-- Little-endian bytes of `v` in `w` bytes, embedding the runtime's
`MarshalUint<N>`/`WriteOffset` writers.  Modelled from the spec:
"Uint(N): little-endian N-byte write"; "Offset: a 4-byte little-endian
index". -/
def toLE : Nat → Nat → List Nat
  | 0, _ => []
  | w + 1, v => v % 256 :: toLE w (v / 256)

/-- Little-endian read, embedding the runtime's `UnmarshallUint<N>` and
`ReadOffset`.  Modelled from the spec: "Uint(N): little-endian read". -/
def fromLE : List Nat → Nat
  | [] => 0
  | b :: r => b + 256 * fromLE r

/-- Index of the highest set bit of a byte (0 for 0 and 1). -/
def msbIndex (b : Nat) : Nat :=
  if 128 ≤ b then 7
  else if 64 ≤ b then 6
  else if 32 ≤ b then 5
  else if 16 ≤ b then 4
  else if 8 ≤ b then 3
  else if 4 ≤ b then 2
  else if 2 ≤ b then 1
  else 0

/-- Modelled from the spec: the runtime helper
`ValidateBitlist(buf, maxBits)` the emitted bitlist unmarshaller calls
(§4.6 "BitList: validate with runtime helper ValidateBitlist(src,
maxBits); then append", §6).  An SSZ bitlist carries a sentinel bit right
above its payload, so the byte string must be non-empty (§4.7 "BitList:
error if empty" / `ErrEmptyBitlist`), its final byte must be non-zero
(the sentinel lives there), and the payload bit count — eight bits per
full byte plus the sentinel position in the final byte — must not exceed
`maxBits`. -/
def validateBitlist (bs : List Nat) (maxBits : Nat) : Bool :=
  match bs.getLast? with
  | none => false
  | some b => b != 0 && decide ((bs.length - 1) * 8 + msbIndex b ≤ maxBits)

mutual

/-- The bound checks the emitted code runs on a value, together with the
typing constraints the Go types enforce statically (byte values below 256,
uints below their width): fixed bytes must have the declared length
(`ErrBytesLength`), dynamic bytes at most `maxSize` bytes, lists at most
`maxCount` elements (`ErrListTooBig`); containers check fieldwise;
vectors have exactly the declared element count (`ErrVectorLength`).  A
bitlist field passes the emitted bound check (`len > maxBits`, the raw
tag value, see the C7 theorems) and is a well-formed bitlist — the
representation the `go-bitfield` constructors produce always carries the
sentinel bit, which the decoder-side `ValidateBitlist` demands. -/
def SVal.validB : Schema → SVal → Bool
  | .uint w, .uint v => v < 256 ^ w
  | .bool, .bool _ => true
  | .bytesF n, .bytes bs => bs.length == n && bs.all (· < 256)
  | .bytesD m, .bytes bs => bs.length ≤ m && bs.all (· < 256)
  | .listU w m, .listU vs => vs.length ≤ m && vs.all (· < 256 ^ w)
  | .bitList m, .bytes bs =>
    decide (bs.length ≤ m) && bs.all (· < 256) && validateBitlist bs m
  | .vec n e, .vals es => es.length == n && SVal.validElems e es
  | .listE m e, .vals es => decide (es.length ≤ m) && SVal.validElems e es
  | .container fs, .container xs => SVal.validFields fs xs
  | _, _ => false

/-- Fieldwise validity. -/
def SVal.validFields : List Schema → List SVal → Bool
  | [], [] => true
  | f :: fr, x :: xr => SVal.validB f x && SVal.validFields fr xr
  | _, _ => false

/-- Elementwise validity against a common element schema. -/
def SVal.validElems : Schema → List SVal → Bool
  | _, [] => true
  | e, x :: r => SVal.validB e x && SVal.validElems e r

end

/-- Concatenated little-endian encodings of a uint list (the emitted
per-element `ssz.MarshalUint<N>` loop). -/
def encListU (w : Nat) : List Nat → List Nat
  | [] => []
  | v :: r => toLE w v ++ encListU w r

mutual

/-- The byte string the emitted `MarshalSSZTo` produces for a value
(part_004): fixed kinds encode directly; a container writes its fixed
fields and a 4-byte offset per variable field (starting at the container's
`valueSize`, advancing by each variable field's size expression), then the
variable tails in order. -/
def encodeVal : Schema → SVal → List Nat
  | .uint w, .uint v => toLE w v
  | .bool, .bool b => [if b then 1 else 0]
  | .bytesF _, .bytes bs => bs
  | .bytesD _, .bytes bs => bs
  | .listU w _, .listU vs => encListU w vs
  | .bitList _, .bytes bs => bs
  | .vec _ e, .vals es =>
    if e.isFixedS then encCat e es
    else encOffs e es (4 * es.length) ++ encCat e es
  | .listE _ e, .vals es =>
    if e.isFixedS then encCat e es
    else encOffs e es (4 * es.length) ++ encCat e es
  | .container fs, .container xs =>
    encFixedParts fs xs (Schema.fixedSum fs) ++ encTails fs xs
  | _, _ => []

/-- The per-element marshal loop of `marshalList`/`marshalVector`
(part_004 lines 85-135): each element's encoding, concatenated in
order. -/
def encCat : Schema → List SVal → List Nat
  | _, [] => []
  | e, x :: r => encodeVal e x ++ encCat e r

/-- The per-element offset loop of the dynamic branch of `marshalList`
(part_004 lines 103-110): `offset = 4 * len(field)`, then for each
element `ssz.WriteOffset(dst, offset)` followed by `offset += <element
size expression>`. -/
def encOffs : Schema → List SVal → Nat → List Nat
  | _, [], _ => []
  | e, x :: r, off => toLE 4 off ++ encOffs e r (off + encSize e x)

/-- Phase A of the emitted marshaller: fixed fields encode in place,
variable fields contribute `ssz.WriteOffset(dst, offset)` with the running
offset, which then advances by the field's size expression (§4.4). -/
def encFixedParts : List Schema → List SVal → Nat → List Nat
  | f :: fr, x :: xr, off =>
    if f.isFixedS then encodeVal f x ++ encFixedParts fr xr off
    else toLE 4 off ++ encFixedParts fr xr (off + encSize f x)
  | _, _, _ => []

/-- Phase B of the emitted marshaller: the variable tails in declaration
order. -/
def encTails : List Schema → List SVal → List Nat
  | f :: fr, x :: xr =>
    (if f.isFixedS then [] else encodeVal f x) ++ encTails fr xr
  | _, _ => []

/-- The size expression the emitters add to `offset`/`size` for a field
(`Value.size`, size.go): `len(field)` for dynamic bytes,
`len(field) * elemSize` for uint lists, `field.SizeSSZ()` (fixed part plus
variable deltas) for containers, and `valueSize` for fixed scalars. -/
def encSize : Schema → SVal → Nat
  | .bytesD _, .bytes bs => bs.length
  | .listU w _, .listU vs => vs.length * w
  | .bitList _, .bytes bs => bs.length
  | .vec n e, .vals es =>
    if e.isFixedS then n * e.valueSize else sumDyn e es
  | .listE _ e, .vals es =>
    if e.isFixedS then es.length * e.valueSize else sumDyn e es
  | .container fs, .container xs => Schema.fixedSum fs + dynSizes fs xs
  | f, _ => f.valueSize

/-- Sum of the size expressions of the variable fields (the dynamic part
of the emitted `SizeSSZ`). -/
def dynSizes : List Schema → List SVal → Nat
  | f :: fr, x :: xr => (if f.isFixedS then 0 else encSize f x) + dynSizes fr xr
  | _, _ => 0

/-- The size loop for lists of variable elements (size.go lines 93-96):
each element contributes 4 offset bytes plus its own size expression. -/
def sumDyn : Schema → List SVal → Nat
  | _, [] => 0
  | e, x :: r => (4 + encSize e x) + sumDyn e r

end

/-- The runtime error constants the modelled decoders return (§6);
`errBitlist` stands for the error `ValidateBitlist` reports and
`errListTooBig` for the one of `DecodeDynamicLength`. -/
inductive Err where
  | errSize
  | errOffset
  | errBytesLength
  | errDivide
  | errBitlist
  | errListTooBig
deriving DecidableEq, Repr

/-- Modelled from the spec: the runtime length helper
`DivideInt2(len, elementSize, maxCount)` of §4.6, which "yields the
count" for a list of fixed-size elements — the length must divide evenly
into elements and the count must respect the bound. -/
def divideInt2 (len size maxCount : Nat) : Except Err Nat :=
  if len % size == 0 && len / size ≤ maxCount then .ok (len / size)
  else .error .errDivide

/-- The decoded uint chunks `buf[ii*w:(ii+1)*w]` of the emitted fixed-list
loop, as successive `w`-byte groups. -/
def decChunks (w : Nat) : Nat → List Nat → List Nat
  | 0, _ => []
  | n + 1, buf => fromLE (buf.take w) :: decChunks w n (buf.drop w)

/-- The offsets phase A collected, in order. -/
def offsetsFromItems (items : List (SVal ⊕ Nat)) : List Nat :=
  items.filterMap fun it =>
    match it with
    | .inl _ => none
    | .inr o => some o

/-- Modelled from the spec: the runtime helper
`DecodeDynamicLength(buf, maxCount)` of §4.6, which "yields count" for a
list of variable elements — an empty buffer holds no elements, otherwise
the first 4-byte offset points at the first tail, so it is four times the
element count, which must respect the bound. -/
def decodeDynamicLength (buf : List Nat) (maxCount : Nat) : Except Err Nat :=
  if buf.length = 0 then .ok 0
  else
    if fromLE (buf.take 4) % 4 == 0 && fromLE (buf.take 4) / 4 ≤ maxCount then
      .ok (fromLE (buf.take 4) / 4)
    else .error .errListTooBig

/-- The per-element offsets the modelled `UnmarshalDynamic` reads from
the head of the buffer: `num` consecutive 4-byte little-endian reads. -/
def elemOffsets : Nat → List Nat → List Nat
  | 0, _ => []
  | n + 1, buf => fromLE (buf.take 4) :: elemOffsets n (buf.drop 4)

/-- The fixed-element decode loop of the emitted vector/list unmarshaller
(part_001 lines 83-91 and 117-124): `n` iterations, the `ii`-th decoding
`buf[ii*esz:(ii+1)*esz]` with the element decoder `d`. -/
def chunkLoop (d : List Nat → Except Err SVal) (esz : Nat) :
    Nat → List Nat → Except Err (List SVal)
  | 0, _ => .ok []
  | n + 1, buf =>
    match d (buf.take esz) with
    | .error e => .error e
    | .ok x =>
      match chunkLoop d esz n (buf.drop esz) with
      | .error e => .error e
      | .ok r => .ok (x :: r)

/-- Modelled from the spec: the element dispatch of
`UnmarshalDynamic(buf, num, fn)` (§4.6, §6), which "drives per-element
decode with a sub-slice passed to each call" — element `i` decodes from
`buf[oᵢ:oᵢ₊₁]`, the last one from `buf[oₙ₋₁:]`. -/
def offsetLoop (d : List Nat → Except Err SVal) :
    List Nat → List Nat → Except Err (List SVal)
  | [], _ => .ok []
  | o :: orest, buf =>
    let slice :=
      match orest with
      | o1 :: _ => (buf.drop o).take (o1 - o)
      | [] => buf.drop o
    match d slice with
    | .error e => .error e
    | .ok x =>
      match offsetLoop d orest buf with
      | .error e => .error e
      | .ok r => .ok (x :: r)

mutual

/-- The emitted `UnmarshalSSZ` (part_001), statement by statement.  For a
container: the top-of-method size check (`!=` `valueSize` when fixed, `<`
when variable, `ErrSize`); phase A walks the fixed region decoding fixed
fields and reading/validating the 4-byte offsets; phase B decodes each
variable field from `tail[oᵢ:oᵢ₊₁]` (the last one to the end of the
buffer).  Scalar decoders embed the runtime readers (modelled from the
spec): `UnmarshallUint<N>` reads `N` little-endian bytes, `UnmarshalBool`
reads one byte, dynamic bytes validate `len ≤ maxSize` then append.  A
bitlist runs `ssz.ValidateBitlist(buf, maxBits)` then appends (part_001
lines 64-76); a vector of fixed elements loops its declared count over
`esz`-byte chunks (lines 79-92); a list of fixed elements recovers the
count with `ssz.DivideInt2` first (lines 114-131); vectors and lists of
variable elements go through `ssz.DecodeDynamicLength` and
`ssz.UnmarshalDynamic` (lines 137-160). -/
def decodeVal : Schema → List Nat → Except Err SVal
  | .uint w, buf => .ok (.uint (fromLE (buf.take w)))
  | .bool, buf => .ok (.bool (buf.headD 0 == 1))
  | .bytesF _, buf => .ok (.bytes buf)
  | .bytesD m, buf =>
    if buf.length > m then .error .errBytesLength else .ok (.bytes buf)
  | .listU w m, buf =>
    match divideInt2 buf.length w m with
    | .error e => .error e
    | .ok num => .ok (.listU (decChunks w num buf))
  | .bitList m, buf =>
    if validateBitlist buf m then .ok (.bytes buf) else .error .errBitlist
  | .vec n e, buf =>
    if e.isFixedS then
      match chunkLoop (decodeVal e) e.valueSize n buf with
      | .error er => .error er
      | .ok es => .ok (.vals es)
    else
      match decodeDynamicLength buf n with
      | .error er => .error er
      | .ok num =>
        match offsetLoop (decodeVal e) (elemOffsets num buf) buf with
        | .error er => .error er
        | .ok es => .ok (.vals es)
  | .listE m e, buf =>
    if e.isFixedS then
      match divideInt2 buf.length e.valueSize m with
      | .error er => .error er
      | .ok num =>
        match chunkLoop (decodeVal e) e.valueSize num buf with
        | .error er => .error er
        | .ok es => .ok (.vals es)
    else
      match decodeDynamicLength buf m with
      | .error er => .error er
      | .ok num =>
        match offsetLoop (decodeVal e) (elemOffsets num buf) buf with
        | .error er => .error er
        | .ok es => .ok (.vals es)
  | .container fs, buf =>
    if Schema.allFixed fs then
      if buf.length ≠ Schema.fixedSum fs then .error .errSize
      else
        match readFixedPart fs buf 0 none with
        | .error e => .error e
        | .ok items =>
          match decodeDyn fs items (offsetsFromItems items) buf with
          | .error e => .error e
          | .ok xs => .ok (.container xs)
    else
      if buf.length < Schema.fixedSum fs then .error .errSize
      else
        match readFixedPart fs buf 0 none with
        | .error e => .error e
        | .ok items =>
          match decodeDyn fs items (offsetsFromItems items) buf with
          | .error e => .error e
          | .ok xs => .ok (.container xs)

/-- Phase A of the emitted unmarshaller (part_001 lines 224-275): walk the
fields with a byte cursor `c`; a fixed field decodes from
`buf[c:c+valueSize]`; a variable field reads `o = ssz.ReadOffset(buf[c:c+4])`
and fails with `ErrOffset` when `o > size` or, from the second offset on,
the previous offset exceeds it. -/
def readFixedPart : List Schema → List Nat → Nat → Option Nat →
    Except Err (List (SVal ⊕ Nat))
  | [], _, _, _ => .ok []
  | f :: fr, buf, c, prev =>
    if f.isFixedS then
      match decodeVal f ((buf.drop c).take f.valueSize) with
      | .error e => .error e
      | .ok x =>
        match readFixedPart fr buf (c + f.valueSize) prev with
        | .error e => .error e
        | .ok rest => .ok (.inl x :: rest)
    else
      let o := fromLE ((buf.drop c).take 4)
      if o > buf.length || (match prev with | some p => p > o | none => false) then
        .error .errOffset
      else
        match readFixedPart fr buf (c + 4) (some o) with
        | .error e => .error e
        | .ok rest => .ok (.inr o :: rest)

/-- Phase B of the emitted unmarshaller (part_001 lines 277-306): walk the
fields again; each variable field decodes from `tail[from:to]` where
`from` is its offset and `to` the next variable field's offset, or the end
of the buffer for the last one.  In the emitted Go the slice bounds were
validated in phase A, so the total `drop`/`take` model coincides with Go
slicing. -/
def decodeDyn : List Schema → List (SVal ⊕ Nat) → List Nat → List Nat →
    Except Err (List SVal)
  | [], _, _, _ => .ok []
  | _ :: fr, .inl x :: ir, offs, tail =>
    match decodeDyn fr ir offs tail with
    | .error e => .error e
    | .ok rest => .ok (x :: rest)
  | f :: fr, .inr _ :: ir, o0 :: orest, tail =>
    let slice :=
      match orest with
      | o1 :: _ => (tail.drop o0).take (o1 - o0)
      | [] => tail.drop o0
    match decodeVal f slice with
    | .error e => .error e
    | .ok x =>
      match decodeDyn fr ir orest tail with
      | .error e => .error e
      | .ok rest => .ok (x :: rest)
  | _, _, _, _ => .error .errSize

end

/-! ### Byte-level lemmas -/

theorem toLE_length (w v : Nat) : (toLE w v).length = w := by
  induction w generalizing v with
  | zero => rfl
  | succ w ih => simp [toLE, ih]

theorem fromLE_toLE (w v : Nat) : fromLE (toLE w v) = v % 256 ^ w := by
  induction w generalizing v with
  | zero => simp [toLE, fromLE, Nat.mod_one]
  | succ w ih =>
    rw [toLE, fromLE, ih]
    rw [pow_succ, Nat.mul_comm (256 ^ w) 256, Nat.mod_mul]

theorem fromLE_toLE_of_lt {w v : Nat} (h : v < 256 ^ w) :
    fromLE (toLE w v) = v := by
  rw [fromLE_toLE, Nat.mod_eq_of_lt h]

theorem encListU_length (w : Nat) (vs : List Nat) :
    (encListU w vs).length = vs.length * w := by
  induction vs with
  | nil => simp [encListU]
  | cons v r ih => simp [encListU, toLE_length, ih, Nat.succ_mul, Nat.add_comm]

theorem decChunks_encListU (w : Nat) (vs : List Nat)
    (hv : ∀ v ∈ vs, v < 256 ^ w) :
    decChunks w vs.length (encListU w vs) = vs := by
  induction vs with
  | nil => simp [decChunks]
  | cons v r ih =>
    have h1 : (toLE w v ++ encListU w r).take w = toLE w v := by
      have := List.take_left (toLE w v) (encListU w r)
      rwa [toLE_length] at this
    have h2 : (toLE w v ++ encListU w r).drop w = encListU w r := by
      have := List.drop_left (toLE w v) (encListU w r)
      rwa [toLE_length] at this
    simp only [List.length_cons, decChunks, encListU, h1, h2]
    rw [fromLE_toLE_of_lt (hv v (List.mem_cons_self v r)),
      ih (fun x hx => hv x (List.mem_cons_of_mem v hx))]

/-! ### Size bookkeeping lemmas -/

theorem dynSizes_of_allFixed (fs : List Schema) (xs : List SVal)
    (h : Schema.allFixed fs = true) : dynSizes fs xs = 0 := by
  induction fs generalizing xs with
  | nil => cases xs <;> rfl
  | cons f fr ih =>
    rw [Schema.allFixed, Bool.and_eq_true] at h
    cases xs with
    | nil => rfl
    | cons x xr =>
      rw [dynSizes, h.1, ih xr h.2]
      simp

theorem encTails_of_allFixed (fs : List Schema) (xs : List SVal)
    (h : Schema.allFixed fs = true) : encTails fs xs = [] := by
  induction fs generalizing xs with
  | nil => cases xs <;> rfl
  | cons f fr ih =>
    rw [Schema.allFixed, Bool.and_eq_true] at h
    cases xs with
    | nil => rfl
    | cons x xr =>
      rw [encTails, h.1, ih xr h.2]
      simp

theorem encSize_of_fixed (f : Schema) (x : SVal) (h : f.isFixedS = true) :
    encSize f x = f.valueSize := by
  cases f with
  | uint w => cases x <;> rfl
  | bool => cases x <;> rfl
  | bytesF n => cases x <;> rfl
  | bytesD m => simp [Schema.isFixedS] at h
  | listU w m => simp [Schema.isFixedS] at h
  | bitList m => simp [Schema.isFixedS] at h
  | vec n e =>
    rw [Schema.isFixedS] at h
    cases x with
    | vals es => rw [encSize, Schema.valueSize, if_pos h, if_pos h]
    | uint v => rfl
    | bool b => rfl
    | bytes bs => rfl
    | listU vs => rfl
    | container cs => rfl
  | listE m e => simp [Schema.isFixedS] at h
  | container fs =>
    rw [Schema.isFixedS] at h
    cases x with
    | container xs =>
      rw [encSize, Schema.valueSize, dynSizes_of_allFixed fs xs h]
      omega
    | uint v => rfl
    | bool b => rfl
    | bytes bs => rfl
    | listU vs => rfl
    | vals es => rfl

theorem validFields_length {fs : List Schema} {xs : List SVal}
    (h : SVal.validFields fs xs = true) : xs.length = fs.length := by
  induction fs generalizing xs with
  | nil => cases xs with
    | nil => rfl
    | cons x xr => simp [SVal.validFields] at h
  | cons f fr ih =>
    cases xs with
    | nil => simp [SVal.validFields] at h
    | cons x xr =>
      rw [SVal.validFields, Bool.and_eq_true] at h
      simp [ih h.2]

theorem validElems_mem {e : Schema} {es : List SVal}
    (h : SVal.validElems e es = true) : ∀ x ∈ es, SVal.validB e x = true := by
  induction es with
  | nil =>
    intro x hx
    cases hx
  | cons y r ih =>
    rw [SVal.validElems, Bool.and_eq_true] at h
    intro x hx
    rcases List.mem_cons.mp hx with rfl | hr
    · exact h.1
    · exact ih h.2 x hr

theorem encOffs_length (e : Schema) (es : List SVal) (off : Nat) :
    (encOffs e es off).length = 4 * es.length := by
  induction es generalizing off with
  | nil => rfl
  | cons x r ih =>
    rw [encOffs, List.length_append, toLE_length, ih, List.length_cons]
    omega

/-- Sum of the element size expressions of a variable-element list. -/
def sumSz : Schema → List SVal → Nat
  | _, [] => 0
  | e, x :: r => encSize e x + sumSz e r

theorem sumDyn_eq (e : Schema) (es : List SVal) :
    sumDyn e es = 4 * es.length + sumSz e es := by
  induction es with
  | nil => rfl
  | cons x r ih =>
    rw [sumDyn, sumSz, ih, List.length_cons]
    omega

theorem encCat_length_of_sz (e : Schema) (es : List SVal)
    (hsz : ∀ y ∈ es, (encodeVal e y).length = encSize e y) :
    (encCat e es).length = sumSz e es := by
  induction es with
  | nil => rfl
  | cons x r ih =>
    rw [encCat, List.length_append, hsz x (List.mem_cons_self x r), sumSz,
      ih (fun y hy => hsz y (List.mem_cons_of_mem x hy))]

theorem encCat_length_fixed (e : Schema) (es : List SVal) (hf : e.isFixedS = true)
    (hsz : ∀ y ∈ es, (encodeVal e y).length = encSize e y) :
    (encCat e es).length = es.length * e.valueSize := by
  induction es with
  | nil => simp [encCat]
  | cons x r ih =>
    rw [encCat, List.length_append, hsz x (List.mem_cons_self x r),
      encSize_of_fixed e x hf, ih (fun y hy => hsz y (List.mem_cons_of_mem x hy)),
      List.length_cons, Nat.succ_mul]
    omega

mutual

theorem encodeVal_length (f : Schema) (x : SVal) (hv : SVal.validB f x = true) :
    (encodeVal f x).length = encSize f x := by
  match f, x with
  | .uint w, .uint v => simp [encodeVal, encSize, toLE_length, Schema.valueSize]
  | .bool, .bool b => simp [encodeVal, encSize, Schema.valueSize]
  | .bytesF n, .bytes bs =>
    rw [SVal.validB, Bool.and_eq_true, beq_iff_eq] at hv
    simp [encodeVal, encSize, Schema.valueSize, hv.1]
  | .bytesD m, .bytes bs => simp [encodeVal, encSize]
  | .listU w m, .listU vs => simp [encodeVal, encSize, encListU_length]
  | .bitList m, .bytes bs => simp [encodeVal, encSize]
  | .vec n e, .vals es =>
    rw [SVal.validB, Bool.and_eq_true, beq_iff_eq] at hv
    have hsz := encCatSizes e es hv.2
    by_cases hf : e.isFixedS = true
    · rw [encodeVal, if_pos hf, encSize, if_pos hf,
        encCat_length_fixed e es hf hsz, hv.1]
    · rw [encodeVal, if_neg hf, encSize, if_neg hf, List.length_append,
        encOffs_length, encCat_length_of_sz e es hsz, sumDyn_eq]
  | .listE m e, .vals es =>
    rw [SVal.validB, Bool.and_eq_true] at hv
    have hsz := encCatSizes e es hv.2
    by_cases hf : e.isFixedS = true
    · rw [encodeVal, if_pos hf, encSize, if_pos hf]
      exact encCat_length_fixed e es hf hsz
    · rw [encodeVal, if_neg hf, encSize, if_neg hf, List.length_append,
        encOffs_length, encCat_length_of_sz e es hsz, sumDyn_eq]
  | .container fs, .container xs =>
    rw [SVal.validB] at hv
    rw [encodeVal, encSize, List.length_append,
      encFixedParts_length fs xs (Schema.fixedSum fs) hv,
      encTails_length fs xs hv]

theorem encCatSizes (e : Schema) (es : List SVal)
    (hv : SVal.validElems e es = true) :
    ∀ y ∈ es, (encodeVal e y).length = encSize e y := by
  match es with
  | [] =>
    intro y hy
    cases hy
  | x :: r =>
    rw [SVal.validElems, Bool.and_eq_true] at hv
    intro y hy
    rcases List.mem_cons.mp hy with rfl | hr
    · exact encodeVal_length e y hv.1
    · exact encCatSizes e r hv.2 y hr

theorem encFixedParts_length (fs : List Schema) (xs : List SVal) (off : Nat)
    (hv : SVal.validFields fs xs = true) :
    (encFixedParts fs xs off).length = Schema.fixedSum fs := by
  match fs, xs with
  | [], [] => rfl
  | [], x :: xr => simp [SVal.validFields] at hv
  | f :: fr, [] => simp [SVal.validFields] at hv
  | f :: fr, x :: xr =>
    rw [SVal.validFields, Bool.and_eq_true] at hv
    by_cases hf : f.isFixedS = true
    · rw [encFixedParts, if_pos hf, List.length_append,
        encodeVal_length f x hv.1, encSize_of_fixed f x hf,
        encFixedParts_length fr xr off hv.2, Schema.fixedSum, if_pos hf]
    · rw [encFixedParts, if_neg hf, List.length_append, toLE_length,
        encFixedParts_length fr xr (off + encSize f x) hv.2, Schema.fixedSum,
        if_neg hf]

theorem encTails_length (fs : List Schema) (xs : List SVal)
    (hv : SVal.validFields fs xs = true) :
    (encTails fs xs).length = dynSizes fs xs := by
  match fs, xs with
  | [], [] => rfl
  | [], x :: xr => simp [SVal.validFields] at hv
  | f :: fr, [] => simp [SVal.validFields] at hv
  | f :: fr, x :: xr =>
    rw [SVal.validFields, Bool.and_eq_true] at hv
    by_cases hf : f.isFixedS = true
    · rw [encTails, if_pos hf, List.nil_append, encTails_length fr xr hv.2,
        dynSizes, if_pos hf, Nat.zero_add]
    · rw [encTails, if_neg hf, List.length_append,
        encodeVal_length f x hv.1, encTails_length fr xr hv.2, dynSizes,
        if_neg hf]

end

/-! ### Fixed fields always decode (within a size-checked buffer) -/

theorem offsetsFromItems_map_inl (xs : List SVal) :
    offsetsFromItems (xs.map Sum.inl) = [] := by
  rw [offsetsFromItems]
  induction xs with
  | nil => rfl
  | cons x xr ih =>
    rw [List.map_cons, List.filterMap_cons]
    exact ih

theorem decodeDyn_inl (fs : List Schema) (xs : List SVal) (offs tail : List Nat)
    (hlen : xs.length = fs.length) :
    decodeDyn fs (xs.map Sum.inl) offs tail = .ok xs := by
  induction fs generalizing xs with
  | nil =>
    cases xs with
    | nil => rfl
    | cons x xr => simp at hlen
  | cons f fr ih =>
    cases xs with
    | nil => simp at hlen
    | cons x xr =>
      rw [List.map_cons, decodeDyn, ih xr (by simpa using hlen)]

theorem chunkLoop_ok (d : List Nat → Except Err SVal) (esz n : Nat)
    (buf : List Nat) (hd : ∀ b : List Nat, b.length = esz → ∃ x, d b = .ok x)
    (hlen : buf.length = n * esz) :
    ∃ xs : List SVal, chunkLoop d esz n buf = .ok xs := by
  induction n generalizing buf with
  | zero => exact ⟨[], rfl⟩
  | succ k ih =>
    have htake : (buf.take esz).length = esz := by
      rw [List.length_take]
      have h1 : esz ≤ buf.length := by
        rw [hlen, Nat.succ_mul]
        omega
      omega
    obtain ⟨x, hx⟩ := hd _ htake
    have hdrop : (buf.drop esz).length = k * esz := by
      rw [List.length_drop, hlen, Nat.succ_mul]
      omega
    obtain ⟨xs, hxs⟩ := ih _ hdrop
    refine ⟨x :: xs, ?_⟩
    simp only [chunkLoop, hx, hxs]

mutual

theorem decodeVal_fixed_ok (f : Schema) (buf : List Nat) (hf : f.isFixedS = true)
    (hlen : buf.length = f.valueSize) : ∃ x, decodeVal f buf = .ok x := by
  match f with
  | .uint w => exact ⟨_, rfl⟩
  | .bool => exact ⟨_, rfl⟩
  | .bytesF n => exact ⟨_, rfl⟩
  | .bytesD m => rw [Schema.isFixedS] at hf; cases hf
  | .listU w m => rw [Schema.isFixedS] at hf; cases hf
  | .bitList m => rw [Schema.isFixedS] at hf; cases hf
  | .listE m e => rw [Schema.isFixedS] at hf; cases hf
  | .vec n e =>
    rw [Schema.isFixedS] at hf
    rw [Schema.valueSize, if_pos hf] at hlen
    obtain ⟨es, hes⟩ := chunkLoop_ok (decodeVal e) e.valueSize n buf
      (fun b hb => decodeVal_fixed_ok e b hf hb) hlen
    refine ⟨.vals es, ?_⟩
    rw [decodeVal, if_pos hf, hes]
  | .container fs =>
    rw [Schema.isFixedS] at hf
    rw [Schema.valueSize] at hlen
    have hb : 0 + Schema.fixedSum fs ≤ buf.length := by omega
    obtain ⟨xs, hitems, hxlen⟩ := readFixedPart_fixed_ok fs buf 0 none hf hb
    refine ⟨.container xs, ?_⟩
    rw [decodeVal, if_pos hf, if_neg (by omega), hitems]
    simp only [offsetsFromItems_map_inl, decodeDyn_inl fs xs _ buf hxlen]

theorem readFixedPart_fixed_ok (fs : List Schema) (buf : List Nat) (c : Nat)
    (prev : Option Nat) (hf : Schema.allFixed fs = true)
    (hlen : c + Schema.fixedSum fs ≤ buf.length) :
    ∃ xs : List SVal, readFixedPart fs buf c prev = .ok (xs.map Sum.inl) ∧
      xs.length = fs.length := by
  match fs with
  | [] => exact ⟨[], rfl, rfl⟩
  | f :: fr =>
    rw [Schema.allFixed, Bool.and_eq_true] at hf
    rw [Schema.fixedSum, if_pos hf.1] at hlen
    have hslice : ((buf.drop c).take f.valueSize).length = f.valueSize := by
      rw [List.length_take, List.length_drop]
      omega
    obtain ⟨x, hx⟩ := decodeVal_fixed_ok f _ hf.1 hslice
    have hb : c + f.valueSize + Schema.fixedSum fr ≤ buf.length := by omega
    obtain ⟨xs, hxs, hxlen⟩ :=
      readFixedPart_fixed_ok fr buf (c + f.valueSize) prev hf.2 hb
    refine ⟨x :: xs, ?_, by simp [hxlen]⟩
    rw [readFixedPart, if_pos hf.1, hx, hxs, List.map_cons]

end

/-! ### Claim C2: the offset reads and checks of the emitted unmarshaller -/

/-- The 4-byte little-endian offsets phase A reads from the fixed region:
walk the fields with the byte cursor, collecting `ReadOffset(buf[c:c+4])`
at each variable field. -/
def readOffsetsFrom : List Schema → List Nat → Nat → List Nat
  | [], _, _ => []
  | f :: fr, buf, c =>
    if f.isFixedS then readOffsetsFrom fr buf (c + f.valueSize)
    else fromLE ((buf.drop c).take 4) :: readOffsetsFrom fr buf (c + 4)

/-- The claim's rejection condition on the offset sequence, scanned left to
right with the previous offset: a violation is `oᵢ > size`, or `oᵢ < oᵢ₋₁`
for any offset after the first. -/
def hasViolation (size : Nat) : Option Nat → List Nat → Bool
  | _, [] => false
  | prev, o :: rest =>
    ((o > size : Bool) ||
      (match prev with | some p => (p > o : Bool) | none => false)) ||
      hasViolation size (some o) rest

theorem readFixedPart_spec (fs : List Schema) (buf : List Nat) (c : Nat)
    (prev : Option Nat) (hlen : c + Schema.fixedSum fs ≤ buf.length) :
    (hasViolation buf.length prev (readOffsetsFrom fs buf c) = true ∧
        readFixedPart fs buf c prev = .error .errOffset) ∨
      (hasViolation buf.length prev (readOffsetsFrom fs buf c) = false ∧
        ∃ items, readFixedPart fs buf c prev = .ok items) := by
  induction fs generalizing c prev with
  | nil => exact .inr ⟨rfl, [], rfl⟩
  | cons f fr ih =>
    by_cases hfx : f.isFixedS = true
    · rw [Schema.fixedSum, if_pos hfx] at hlen
      have hslice : ((buf.drop c).take f.valueSize).length = f.valueSize := by
        rw [List.length_take, List.length_drop]
        omega
      obtain ⟨x, hx⟩ := decodeVal_fixed_ok f _ hfx hslice
      rcases ih (c + f.valueSize) prev (by omega) with ⟨hv, herr⟩ | ⟨hv, items, hok⟩
      · refine .inl ⟨?_, ?_⟩
        · rw [readOffsetsFrom, if_pos hfx]
          exact hv
        · rw [readFixedPart, if_pos hfx, hx, herr]
      · refine .inr ⟨?_, .inl x :: items, ?_⟩
        · rw [readOffsetsFrom, if_pos hfx]
          exact hv
        · rw [readFixedPart, if_pos hfx, hx, hok]
    · rw [Schema.fixedSum, if_neg hfx] at hlen
      set o := fromLE ((buf.drop c).take 4) with ho
      by_cases hcheck :
          (((o > buf.length : Bool)) ||
            (match prev with | some p => ((p > o : Bool)) | none => false)) = true
      · refine .inl ⟨?_, ?_⟩
        · rw [readOffsetsFrom, if_neg hfx]
          simp only [hasViolation]
          rw [← ho, hcheck]
          simp
        · rw [readFixedPart, if_neg hfx, ← ho, if_pos hcheck]
      · have hcheck' := hcheck
        rw [Bool.not_eq_true] at hcheck'
        rcases ih (c + 4) (some o) (by omega) with ⟨hv, herr⟩ | ⟨hv, items, hok⟩
        · refine .inl ⟨?_, ?_⟩
          · rw [readOffsetsFrom, if_neg hfx]
            simp only [hasViolation]
            rw [← ho, hv]
            simp
          · rw [readFixedPart, if_neg hfx, ← ho, if_neg hcheck, herr]
        · refine .inr ⟨?_, .inr o :: items, ?_⟩
          · rw [readOffsetsFrom, if_neg hfx]
            simp only [hasViolation]
            rw [← ho, hv, hcheck']
            rfl
          · rw [readFixedPart, if_neg hfx, ← ho, if_neg hcheck, hok]

theorem readFixedPart_errOffset_iff (fs : List Schema) (buf : List Nat)
    (hlen : Schema.fixedSum fs ≤ buf.length) :
    (readFixedPart fs buf 0 none = .error .errOffset ↔
      hasViolation buf.length none (readOffsetsFrom fs buf 0) = true) := by
  rcases readFixedPart_spec fs buf 0 none (by omega) with ⟨hv, he⟩ | ⟨hv, items, hok⟩
  · simp [he, hv]
  · simp [hok, hv]

theorem noViolation_chain (size : Nat) (os : List Nat) :
    ∀ prev, hasViolation size prev os = false →
      List.Chain' (· ≤ ·) (os ++ [size]) := by
  induction os with
  | nil =>
    intro _ _
    simp
  | cons o rest ih =>
    intro prev h
    simp only [hasViolation] at h
    simp only [Bool.or_eq_false_iff] at h
    obtain ⟨⟨h1, -⟩, h3⟩ := h
    have hos : o ≤ size := by simpa using h1
    cases rest with
    | nil => simp [hos]
    | cons o2 rest2 =>
      have h4 := h3
      simp only [hasViolation] at h4
      simp only [Bool.or_eq_false_iff] at h4
      have ho2 : o ≤ o2 := by simpa using h4.1.2
      have hch := ih (some o) h3
      rw [List.cons_append] at hch ⊢
      rw [List.cons_append, List.chain'_cons]
      exact ⟨ho2, by rw [← List.cons_append]; exact hch⟩

/-- C2: the emitted unmarshaller of a container reads the 4-byte
little-endian offset of each variable field from the fixed region and
phase A returns `ssz.ErrOffset` exactly when some offset exceeds the
buffer length or (from the second on) falls below its predecessor; hence
any accepted buffer has its offsets in a monotone chain bounded by the
buffer length. -/
theorem umarshalContainer_offsets (fs : List Schema) (buf : List Nat)
    (hlen : Schema.fixedSum fs ≤ buf.length) :
    (readFixedPart fs buf 0 none = .error .errOffset ↔
        hasViolation buf.length none (readOffsetsFrom fs buf 0) = true) ∧
      ∀ xs, decodeVal (.container fs) buf = .ok xs →
        List.Chain' (· ≤ ·) (readOffsetsFrom fs buf 0 ++ [buf.length]) := by
  refine ⟨readFixedPart_errOffset_iff fs buf hlen, ?_⟩
  intro xs hok
  rcases readFixedPart_spec fs buf 0 none (by omega) with ⟨hv, herr⟩ | ⟨hv, items, hitems⟩
  · rw [decodeVal] at hok
    split at hok
    · split at hok
      · cases hok
      · rw [herr] at hok
        cases hok
    · split at hok
      · cases hok
      · rw [herr] at hok
        cases hok
  · exact noViolation_chain buf.length _ none hv

/-! ### Claim C3: roundtrip of the emitted encoder/decoder pair -/

/-- The phase-A items the decoder recovers from a well-formed encoding:
fixed fields decode to their values, variable fields read their running
offsets. -/
def expectedItems : List Schema → List SVal → Nat → List (SVal ⊕ Nat)
  | f :: fr, x :: xr, off =>
    if f.isFixedS then Sum.inl x :: expectedItems fr xr off
    else Sum.inr off :: expectedItems fr xr (off + encSize f x)
  | _, _, _ => []

/-- The running offsets of the variable fields, starting at `off`. -/
def varOffsets : List Schema → List SVal → Nat → List Nat
  | f :: fr, x :: xr, off =>
    if f.isFixedS then varOffsets fr xr off
    else off :: varOffsets fr xr (off + encSize f x)
  | _, _, _ => []

theorem offsetsFromItems_expectedItems (fs : List Schema) (xs : List SVal)
    (off : Nat) :
    offsetsFromItems (expectedItems fs xs off) = varOffsets fs xs off := by
  induction fs generalizing xs off with
  | nil => cases xs <;> rfl
  | cons f fr ih =>
    cases xs with
    | nil => rfl
    | cons x xr =>
      by_cases hfx : f.isFixedS = true
      · rw [expectedItems, if_pos hfx, varOffsets, if_pos hfx, offsetsFromItems,
          List.filterMap_cons]
        exact ih xr off
      · rw [expectedItems, if_neg hfx, varOffsets, if_neg hfx, offsetsFromItems,
          List.filterMap_cons]
        simp only
        rw [← offsetsFromItems, ih xr (off + encSize f x)]

theorem varOffsets_eq_nil {fs : List Schema} {xs : List SVal} {off : Nat}
    (h : varOffsets fs xs off = []) :
    dynSizes fs xs = 0 ∧ encTails fs xs = [] := by
  induction fs generalizing xs off with
  | nil => cases xs <;> exact ⟨rfl, rfl⟩
  | cons f fr ih =>
    cases xs with
    | nil => exact ⟨rfl, rfl⟩
    | cons x xr =>
      by_cases hfx : f.isFixedS = true
      · rw [varOffsets, if_pos hfx] at h
        obtain ⟨h1, h2⟩ := ih h
        refine ⟨?_, ?_⟩
        · rw [dynSizes, if_pos hfx, h1]
        · rw [encTails, if_pos hfx, h2, List.nil_append]
      · rw [varOffsets, if_neg hfx] at h
        cases h

theorem varOffsets_head {fs : List Schema} {xs : List SVal} {off o : Nat}
    {rest : List Nat} (h : varOffsets fs xs off = o :: rest) : o = off := by
  induction fs generalizing xs off with
  | nil => cases xs <;> cases h
  | cons f fr ih =>
    cases xs with
    | nil => cases h
    | cons x xr =>
      by_cases hfx : f.isFixedS = true
      · rw [varOffsets, if_pos hfx] at h
        exact ih h
      · rw [varOffsets, if_neg hfx] at h
        exact (List.cons.injEq _ _ _ _ ▸ h).1.symm

theorem take_append_of_length {α : Type} {l₁ l₂ : List α} {n : Nat}
    (h : l₁.length = n) : (l₁ ++ l₂).take n = l₁ := by
  subst h
  exact List.take_left l₁ l₂

theorem drop_append_of_length {α : Type} {l₁ l₂ : List α} {n : Nat}
    (h : l₁.length = n) : (l₁ ++ l₂).drop n = l₂ := by
  subst h
  exact List.drop_left l₁ l₂

theorem drop_add {α : Type} (l : List α) (n m : Nat) :
    l.drop (n + m) = (l.drop n).drop m := by
  rw [List.drop_drop, Nat.add_comm]

theorem encCat_mem_length_le (e : Schema) {x : SVal} {es : List SVal}
    (h : x ∈ es) : (encodeVal e x).length ≤ (encCat e es).length := by
  induction es with
  | nil => cases h
  | cons y r ih =>
    rw [encCat, List.length_append]
    rcases List.mem_cons.mp h with rfl | hr
    · omega
    · have h1 := ih hr
      omega

/-- The running element offsets the dynamic-list encoder writes, starting
at `off` (4 bytes per element ahead of the tails). -/
def offsList : Schema → List SVal → Nat → List Nat
  | _, [], _ => []
  | e, x :: r, off => off :: offsList e r (off + encSize e x)

theorem offsList_le_bound (e : Schema) (es : List SVal) (off : Nat) :
    ∀ o ∈ offsList e es off, o ≤ off + sumSz e es := by
  induction es generalizing off with
  | nil =>
    intro o ho
    cases ho
  | cons x r ih =>
    intro o ho
    rw [offsList] at ho
    rcases List.mem_cons.mp ho with rfl | hr
    · rw [sumSz]
      omega
    · have h1 := ih (off + encSize e x) o hr
      rw [sumSz]
      omega

theorem elemOffsets_encOffs (e : Schema) (es : List SVal) (off : Nat)
    (T : List Nat) (hlt : ∀ o ∈ offsList e es off, o < 2 ^ 32) :
    elemOffsets es.length (encOffs e es off ++ T) = offsList e es off := by
  induction es generalizing off T with
  | nil => rfl
  | cons x r ih =>
    have hofflt : off < 2 ^ 32 :=
      hlt off (by rw [offsList]; exact List.mem_cons_self _ _)
    have htake : (encOffs e (x :: r) off ++ T).take 4 = toLE 4 off := by
      rw [encOffs, List.append_assoc]
      exact take_append_of_length (toLE_length 4 off)
    have hdrop : (encOffs e (x :: r) off ++ T).drop 4
        = encOffs e r (off + encSize e x) ++ T := by
      rw [encOffs, List.append_assoc]
      exact drop_append_of_length (toLE_length 4 off)
    have hrec := ih (off + encSize e x) T (fun o ho =>
      hlt o (by rw [offsList]; exact List.mem_cons_of_mem _ ho))
    have h2564 : (256 : Nat) ^ 4 = 2 ^ 32 := by norm_num
    rw [List.length_cons]
    simp only [elemOffsets, htake, hdrop, hrec, offsList]
    rw [fromLE_toLE_of_lt (by rw [h2564]; exact hofflt)]

theorem chunkLoop_cat (d : List Nat → Except Err SVal) (e : Schema)
    (es : List SVal) (esz : Nat)
    (hsz : ∀ y ∈ es, (encodeVal e y).length = esz)
    (hd : ∀ y ∈ es, d (encodeVal e y) = .ok y) :
    chunkLoop d esz es.length (encCat e es) = .ok es := by
  induction es with
  | nil => rfl
  | cons x r ih =>
    have hx := hd x (List.mem_cons_self x r)
    have hxs := hsz x (List.mem_cons_self x r)
    have htake : (encCat e (x :: r)).take esz = encodeVal e x := by
      rw [encCat]
      exact take_append_of_length hxs
    have hdrop : (encCat e (x :: r)).drop esz = encCat e r := by
      rw [encCat]
      exact drop_append_of_length hxs
    have hrec := ih (fun y hy => hsz y (List.mem_cons_of_mem x hy))
      (fun y hy => hd y (List.mem_cons_of_mem x hy))
    rw [List.length_cons]
    simp only [chunkLoop, htake, hdrop, hx, hrec]

theorem offsetLoop_cat (d : List Nat → Except Err SVal) (e : Schema)
    (es : List SVal) (off : Nat) (B : List Nat)
    (hB : B.drop off = encCat e es)
    (hsz : ∀ y ∈ es, (encodeVal e y).length = encSize e y)
    (hd : ∀ y ∈ es, d (encodeVal e y) = .ok y) :
    offsetLoop d (offsList e es off) B = .ok es := by
  induction es generalizing off with
  | nil => rfl
  | cons x r ih =>
    have hx := hd x (List.mem_cons_self x r)
    have hxs := hsz x (List.mem_cons_self x r)
    have hBx : B.drop off = encodeVal e x ++ encCat e r := by
      rw [hB, encCat]
    have hnext : B.drop (off + encSize e x) = encCat e r := by
      rw [drop_add, hBx]
      exact drop_append_of_length hxs
    have hrec := ih (off + encSize e x) hnext
      (fun y hy => hsz y (List.mem_cons_of_mem x hy))
      (fun y hy => hd y (List.mem_cons_of_mem x hy))
    cases r with
    | nil =>
      have hslice : B.drop off = encodeVal e x := by
        rw [hBx, encCat, List.append_nil]
      rw [offsList, offsList]
      simp only [offsetLoop, hslice, hx]
    | cons y rr =>
      have hslice : (B.drop off).take ((off + encSize e x) - off)
          = encodeVal e x := by
        rw [Nat.add_sub_cancel_left, hBx]
        exact take_append_of_length hxs
      rw [offsList] at hrec
      simp only [offsetLoop] at hrec
      rw [offsList, offsList]
      simp only [offsetLoop, hslice, hx, hrec]

theorem decodeDynamicLength_enc (e : Schema) (es : List SVal) (bound : Nat)
    (hcnt : es.length ≤ bound) (hlt : 4 * es.length < 2 ^ 32) :
    decodeDynamicLength (encOffs e es (4 * es.length) ++ encCat e es) bound
      = .ok es.length := by
  cases es with
  | nil => rfl
  | cons x r =>
    have hlen0 : (encOffs e (x :: r) (4 * (x :: r).length)
        ++ encCat e (x :: r)).length ≠ 0 := by
      rw [List.length_append, encOffs_length, List.length_cons]
      omega
    have htake : (encOffs e (x :: r) (4 * (x :: r).length)
        ++ encCat e (x :: r)).take 4 = toLE 4 (4 * (x :: r).length) := by
      rw [encOffs, List.append_assoc]
      exact take_append_of_length (toLE_length _ _)
    have h2564 : (256 : Nat) ^ 4 = 2 ^ 32 := by norm_num
    have hval : fromLE ((encOffs e (x :: r) (4 * (x :: r).length)
        ++ encCat e (x :: r)).take 4) = 4 * (x :: r).length := by
      rw [htake]
      exact fromLE_toLE_of_lt (by rw [h2564]; exact hlt)
    have hdiv : 4 * (x :: r).length / 4 = (x :: r).length :=
      Nat.mul_div_cancel_left _ (by norm_num)
    rw [decodeDynamicLength, if_neg hlen0, hval, if_pos]
    · rw [hdiv]
    · rw [Bool.and_eq_true, hdiv]
      exact ⟨by simp [Nat.mul_mod_right], by simpa using hcnt⟩

theorem offsetLoop_enc (d : List Nat → Except Err SVal) (e : Schema)
    (es : List SVal)
    (hsz : ∀ y ∈ es, (encodeVal e y).length = encSize e y)
    (hd : ∀ y ∈ es, d (encodeVal e y) = .ok y)
    (hB : (encOffs e es (4 * es.length) ++ encCat e es).length < 2 ^ 32) :
    offsetLoop d
        (elemOffsets es.length (encOffs e es (4 * es.length) ++ encCat e es))
        (encOffs e es (4 * es.length) ++ encCat e es) = .ok es := by
  have hlen : (encOffs e es (4 * es.length) ++ encCat e es).length
      = 4 * es.length + sumSz e es := by
    rw [List.length_append, encOffs_length, encCat_length_of_sz e es hsz]
  have hoffs := elemOffsets_encOffs e es (4 * es.length) (encCat e es)
    (fun o ho => by
      have h1 := offsList_le_bound e es (4 * es.length) o ho
      omega)
  rw [hoffs]
  exact offsetLoop_cat d e es (4 * es.length) _
    (drop_append_of_length (encOffs_length e es (4 * es.length))) hsz hd

mutual

/-- Roundtrip of the modelled emitted code: decoding the emitted encoding
of a valid value recovers the value. -/
theorem decode_encode (f : Schema) (x : SVal) (hwf : f.swf = true)
    (hv : SVal.validB f x = true)
    (hlen : (encodeVal f x).length < 2 ^ 32) :
    decodeVal f (encodeVal f x) = .ok x := by
  cases f with
  | uint w =>
    cases x with
    | uint v =>
      have hv' : v < 256 ^ w := by
        rw [SVal.validB] at hv
        simpa using hv
      rw [encodeVal, decodeVal, List.take_of_length_le (le_of_eq (toLE_length w v)),
        fromLE_toLE_of_lt hv']
    | bool b => exact absurd hv (by simp [SVal.validB])
    | bytes bs => exact absurd hv (by simp [SVal.validB])
    | listU vs => exact absurd hv (by simp [SVal.validB])
    | container cs => exact absurd hv (by simp [SVal.validB])
    | vals es => exact absurd hv (by simp [SVal.validB])
  | bool =>
    cases x with
    | bool b => cases b <;> rfl
    | uint v => exact absurd hv (by simp [SVal.validB])
    | bytes bs => exact absurd hv (by simp [SVal.validB])
    | listU vs => exact absurd hv (by simp [SVal.validB])
    | container cs => exact absurd hv (by simp [SVal.validB])
    | vals es => exact absurd hv (by simp [SVal.validB])
  | bytesF n =>
    cases x with
    | bytes bs => rfl
    | uint v => exact absurd hv (by simp [SVal.validB])
    | bool b => exact absurd hv (by simp [SVal.validB])
    | listU vs => exact absurd hv (by simp [SVal.validB])
    | container cs => exact absurd hv (by simp [SVal.validB])
    | vals es => exact absurd hv (by simp [SVal.validB])
  | bytesD m =>
    cases x with
    | bytes bs =>
      rw [SVal.validB, Bool.and_eq_true] at hv
      have h1 : bs.length ≤ m := by simpa using hv.1
      rw [encodeVal, decodeVal, if_neg (by omega)]
    | uint v => exact absurd hv (by simp [SVal.validB])
    | bool b => exact absurd hv (by simp [SVal.validB])
    | listU vs => exact absurd hv (by simp [SVal.validB])
    | container cs => exact absurd hv (by simp [SVal.validB])
    | vals es => exact absurd hv (by simp [SVal.validB])
  | listU w m =>
    cases x with
    | listU vs =>
      rw [Schema.swf] at hwf
      have hw : 0 < w := by simpa using hwf
      rw [SVal.validB, Bool.and_eq_true] at hv
      have h1 : vs.length ≤ m := by simpa using hv.1
      have h2 : ∀ u ∈ vs, u < 256 ^ w := by
        simpa [List.all_eq_true] using hv.2
      have hdiv : divideInt2 (encListU w vs).length w m = .ok vs.length := by
        rw [encListU_length, divideInt2, if_pos]
        · rw [Nat.mul_div_cancel _ hw]
        · rw [Bool.and_eq_true]
          refine ⟨by simp [Nat.mul_mod_left], ?_⟩
          rw [Nat.mul_div_cancel _ hw]
          simpa using h1
      rw [encodeVal, decodeVal, hdiv]
      show Except.ok (SVal.listU (decChunks w vs.length (encListU w vs))) =
        Except.ok (SVal.listU vs)
      rw [decChunks_encListU w vs h2]
    | uint v => exact absurd hv (by simp [SVal.validB])
    | bool b => exact absurd hv (by simp [SVal.validB])
    | bytes bs => exact absurd hv (by simp [SVal.validB])
    | container cs => exact absurd hv (by simp [SVal.validB])
    | vals es => exact absurd hv (by simp [SVal.validB])
  | bitList m =>
    cases x with
    | bytes bs =>
      rw [SVal.validB, Bool.and_eq_true] at hv
      rw [encodeVal, decodeVal, if_pos hv.2]
    | uint v => exact absurd hv (by simp [SVal.validB])
    | bool b => exact absurd hv (by simp [SVal.validB])
    | listU vs => exact absurd hv (by simp [SVal.validB])
    | container cs => exact absurd hv (by simp [SVal.validB])
    | vals es => exact absurd hv (by simp [SVal.validB])
  | vec n e =>
    cases x with
    | vals es =>
      rw [Schema.swf] at hwf
      rw [SVal.validB, Bool.and_eq_true, beq_iff_eq] at hv
      have hsz := encCatSizes e es hv.2
      by_cases hf : e.isFixedS = true
      · rw [encodeVal, if_pos hf] at hlen ⊢
        have hlens : ∀ y ∈ es, (encodeVal e y).length < 2 ^ 32 := fun y hy =>
          lt_of_le_of_lt (encCat_mem_length_le e hy) hlen
        have hd := decodeElems_enc e es hwf hv.2 hlens
        have hfix : ∀ y ∈ es, (encodeVal e y).length = e.valueSize := by
          intro y hy
          rw [hsz y hy, encSize_of_fixed e y hf]
        rw [decodeVal, if_pos hf, ← hv.1,
          chunkLoop_cat (decodeVal e) e es e.valueSize hfix hd]
      · rw [encodeVal, if_neg hf] at hlen ⊢
        have hlens : ∀ y ∈ es, (encodeVal e y).length < 2 ^ 32 := by
          intro y hy
          have h1 := encCat_mem_length_le e hy
          have h2 : (encCat e es).length
              ≤ (encOffs e es (4 * es.length) ++ encCat e es).length := by
            rw [List.length_append]
            omega
          omega
        have hd := decodeElems_enc e es hwf hv.2 hlens
        have hcnt : es.length ≤ n := le_of_eq hv.1
        have h4lt : 4 * es.length < 2 ^ 32 := by
          have h1 : 4 * es.length
              ≤ (encOffs e es (4 * es.length) ++ encCat e es).length := by
            rw [List.length_append, encOffs_length e es (4 * es.length)]
            omega
          omega
        rw [decodeVal, if_neg hf, decodeDynamicLength_enc e es n hcnt h4lt]
        simp only [offsetLoop_enc (decodeVal e) e es hsz hd hlen]
    | uint v => exact absurd hv (by simp [SVal.validB])
    | bool b => exact absurd hv (by simp [SVal.validB])
    | bytes bs => exact absurd hv (by simp [SVal.validB])
    | listU vs => exact absurd hv (by simp [SVal.validB])
    | container cs => exact absurd hv (by simp [SVal.validB])
  | listE m e =>
    cases x with
    | vals es =>
      rw [Schema.swf, Bool.and_eq_true] at hwf
      rw [SVal.validB, Bool.and_eq_true] at hv
      have hcnt : es.length ≤ m := by simpa using hv.1
      have hsz := encCatSizes e es hv.2
      by_cases hf : e.isFixedS = true
      · rw [encodeVal, if_pos hf] at hlen ⊢
        have hlens : ∀ y ∈ es, (encodeVal e y).length < 2 ^ 32 := fun y hy =>
          lt_of_le_of_lt (encCat_mem_length_le e hy) hlen
        have hd := decodeElems_enc e es hwf.1 hv.2 hlens
        have hfix : ∀ y ∈ es, (encodeVal e y).length = e.valueSize := by
          intro y hy
          rw [hsz y hy, encSize_of_fixed e y hf]
        have hesz : 0 < e.valueSize := by
          have h1 := hwf.2
          rw [hf] at h1
          simpa using h1
        have hc := encCat_length_fixed e es hf hsz
        have hdiv : divideInt2 (encCat e es).length e.valueSize m
            = .ok es.length := by
          rw [hc, divideInt2, if_pos]
          · rw [Nat.mul_div_cancel _ hesz]
          · rw [Bool.and_eq_true]
            exact ⟨by simp [Nat.mul_mod_left], by rw [Nat.mul_div_cancel _ hesz]; simpa using hcnt⟩
        rw [decodeVal, if_pos hf, hdiv]
        simp only [chunkLoop_cat (decodeVal e) e es e.valueSize hfix hd]
      · rw [encodeVal, if_neg hf] at hlen ⊢
        have hlens : ∀ y ∈ es, (encodeVal e y).length < 2 ^ 32 := by
          intro y hy
          have h1 := encCat_mem_length_le e hy
          have h2 : (encCat e es).length
              ≤ (encOffs e es (4 * es.length) ++ encCat e es).length := by
            rw [List.length_append]
            omega
          omega
        have hd := decodeElems_enc e es hwf.1 hv.2 hlens
        have h4lt : 4 * es.length < 2 ^ 32 := by
          have h1 : 4 * es.length
              ≤ (encOffs e es (4 * es.length) ++ encCat e es).length := by
            rw [List.length_append, encOffs_length e es (4 * es.length)]
            omega
          omega
        rw [decodeVal, if_neg hf, decodeDynamicLength_enc e es m hcnt h4lt]
        simp only [offsetLoop_enc (decodeVal e) e es hsz hd hlen]
    | uint v => exact absurd hv (by simp [SVal.validB])
    | bool b => exact absurd hv (by simp [SVal.validB])
    | bytes bs => exact absurd hv (by simp [SVal.validB])
    | listU vs => exact absurd hv (by simp [SVal.validB])
    | container cs => exact absurd hv (by simp [SVal.validB])
  | container fs =>
    cases x with
    | container xs =>
      rw [Schema.swf] at hwf
      rw [SVal.validB] at hv
      have hFP := encFixedParts_length fs xs (Schema.fixedSum fs) hv
      have hT := encTails_length fs xs hv
      have hBdef : encodeVal (Schema.container fs) (SVal.container xs) =
          encFixedParts fs xs (Schema.fixedSum fs) ++ encTails fs xs := by
        rw [encodeVal]
      rw [hBdef] at hlen ⊢
      have hBlen : (encFixedParts fs xs (Schema.fixedSum fs) ++ encTails fs xs).length =
          Schema.fixedSum fs + dynSizes fs xs := by
        rw [List.length_append, hFP, hT]
      have hitems := readFixedPart_enc fs xs
        (encFixedParts fs xs (Schema.fixedSum fs) ++ encTails fs xs) 0
        (Schema.fixedSum fs) none (encTails fs xs) hwf hv
        (by rw [List.drop_zero])
        (by omega)
        hlen
        (by intro p hp; cases hp)
      have hdyn := decodeDyn_enc fs xs
        (encFixedParts fs xs (Schema.fixedSum fs) ++ encTails fs xs)
        (Schema.fixedSum fs) hwf hv
        (drop_append_of_length hFP)
        (by omega)
        hlen
      rw [decodeVal]
      by_cases hall : Schema.allFixed fs = true
      · have hd0 : dynSizes fs xs = 0 := dynSizes_of_allFixed fs xs hall
        rw [if_pos hall, if_neg (by omega), hitems]
        simp only [offsetsFromItems_expectedItems, hdyn]
      · rw [if_neg hall, if_neg (by omega), hitems]
        simp only [offsetsFromItems_expectedItems, hdyn]
    | uint v => exact absurd hv (by simp [SVal.validB])
    | bool b => exact absurd hv (by simp [SVal.validB])
    | bytes bs => exact absurd hv (by simp [SVal.validB])
    | listU vs => exact absurd hv (by simp [SVal.validB])
    | vals es => exact absurd hv (by simp [SVal.validB])

/-- Every element of a valid variable-length collection roundtrips
through the element schema's emitted encoder and decoder. -/
theorem decodeElems_enc (e : Schema) (es : List SVal) (hwf : e.swf = true)
    (hv : SVal.validElems e es = true)
    (hlen : ∀ y ∈ es, (encodeVal e y).length < 2 ^ 32) :
    ∀ y ∈ es, decodeVal e (encodeVal e y) = .ok y := by
  match es with
  | [] =>
    intro y hy
    cases hy
  | x :: r =>
    rw [SVal.validElems, Bool.and_eq_true] at hv
    intro y hy
    rcases List.mem_cons.mp hy with rfl | hr
    · exact decode_encode e y hwf hv.1 (hlen y hy)
    · exact decodeElems_enc e r hwf hv.2
        (fun z hz => hlen z (List.mem_cons_of_mem x hz)) y hr

/-- Phase A of the emitted unmarshaller, run on a well-formed encoding:
every fixed field decodes to its value and every offset read passes the
checks, yielding exactly the expected items. -/
theorem readFixedPart_enc (fs : List Schema) (xs : List SVal) (B : List Nat)
    (c off : Nat) (prev : Option Nat) (J : List Nat)
    (hwf : Schema.swfList fs = true) (hv : SVal.validFields fs xs = true)
    (hdrop : B.drop c = encFixedParts fs xs off ++ J)
    (hoff : off + dynSizes fs xs ≤ B.length)
    (hB : B.length < 2 ^ 32)
    (hprev : ∀ p, prev = some p → p ≤ off) :
    readFixedPart fs B c prev = .ok (expectedItems fs xs off) := by
  match fs, xs with
  | [], [] => rfl
  | [], x :: xr => exact absurd hv (by simp [SVal.validFields])
  | f :: fr, [] => exact absurd hv (by simp [SVal.validFields])
  | f :: fr, x :: xr =>
    rw [Schema.swfList, Bool.and_eq_true] at hwf
    rw [SVal.validFields, Bool.and_eq_true] at hv
    by_cases hfx : f.isFixedS = true
    · rw [encFixedParts, if_pos hfx, List.append_assoc] at hdrop
      have hexlen : (encodeVal f x).length = f.valueSize := by
        rw [encodeVal_length f x hv.1, encSize_of_fixed f x hfx]
      have hslice : (B.drop c).take f.valueSize = encodeVal f x := by
        rw [hdrop]
        exact take_append_of_length hexlen
      have hencB : (encodeVal f x).length < 2 ^ 32 := by
        have h1 : (encodeVal f x).length ≤ (B.drop c).length := by
          rw [hdrop]
          simp
        have h2 : (B.drop c).length ≤ B.length := by
          rw [List.length_drop]
          omega
        omega
      have hx : decodeVal f ((B.drop c).take f.valueSize) = .ok x := by
        rw [hslice]
        exact decode_encode f x hwf.1 hv.1 hencB
      have hdrop' : B.drop (c + f.valueSize) = encFixedParts fr xr off ++ J := by
        rw [drop_add, hdrop, drop_append_of_length hexlen]
      have hoff' : off + dynSizes fr xr ≤ B.length := by
        rw [dynSizes, if_pos hfx] at hoff
        omega
      have hrec := readFixedPart_enc fr xr B (c + f.valueSize) off prev J
        hwf.2 hv.2 hdrop' hoff' hB hprev
      rw [readFixedPart, if_pos hfx, hx, hrec, expectedItems, if_pos hfx]
    · rw [encFixedParts, if_neg hfx, List.append_assoc] at hdrop
      rw [dynSizes, if_neg hfx] at hoff
      have hoffLt : off < 2 ^ 32 := by omega
      have h4len : (toLE 4 off).length = 4 := toLE_length 4 off
      have hslice : (B.drop c).take 4 = toLE 4 off := by
        rw [hdrop]
        exact take_append_of_length h4len
      have h2564 : (256 : Nat) ^ 4 = 2 ^ 32 := by norm_num
      have hoval : fromLE ((B.drop c).take 4) = off := by
        rw [hslice]
        exact fromLE_toLE_of_lt (by omega)
      have hdrop' : B.drop (c + 4) = encFixedParts fr xr (off + encSize f x) ++ J := by
        rw [drop_add, hdrop, drop_append_of_length h4len]
      have hoff' : (off + encSize f x) + dynSizes fr xr ≤ B.length := by
        omega
      have hprev' : ∀ p, some off = some p → p ≤ off + encSize f x := by
        intro p hp
        injection hp with hp
        omega
      have hrec := readFixedPart_enc fr xr B (c + 4) (off + encSize f x)
        (some off) J hwf.2 hv.2 hdrop' hoff' hB hprev'
      cases prev with
      | none =>
        rw [readFixedPart, if_neg hfx, hoval, if_neg (by simp; omega), hrec,
          expectedItems, if_neg hfx]
      | some p =>
        have hp := hprev p rfl
        rw [readFixedPart, if_neg hfx, hoval, if_neg (by simp; omega), hrec,
          expectedItems, if_neg hfx]

/-- Phase B of the emitted unmarshaller, run on a well-formed encoding:
each variable field decodes from its tail slice to its value. -/
theorem decodeDyn_enc (fs : List Schema) (xs : List SVal) (tail : List Nat)
    (off : Nat)
    (hwf : Schema.swfList fs = true) (hv : SVal.validFields fs xs = true)
    (htail : tail.drop off = encTails fs xs)
    (hlen : tail.length = off + dynSizes fs xs)
    (hB : tail.length < 2 ^ 32) :
    decodeDyn fs (expectedItems fs xs off) (varOffsets fs xs off) tail = .ok xs := by
  match fs, xs with
  | [], [] => rfl
  | [], x :: xr => exact absurd hv (by simp [SVal.validFields])
  | f :: fr, [] => exact absurd hv (by simp [SVal.validFields])
  | f :: fr, x :: xr =>
    rw [Schema.swfList, Bool.and_eq_true] at hwf
    rw [SVal.validFields, Bool.and_eq_true] at hv
    by_cases hfx : f.isFixedS = true
    · rw [expectedItems, if_pos hfx, varOffsets, if_pos hfx]
      rw [encTails, if_pos hfx, List.nil_append] at htail
      rw [dynSizes, if_pos hfx] at hlen
      have hrec := decodeDyn_enc fr xr tail off hwf.2 hv.2 htail
        (by omega) hB
      rw [decodeDyn, hrec]
    · rw [expectedItems, if_neg hfx, varOffsets, if_neg hfx]
      rw [encTails, if_neg hfx] at htail
      rw [dynSizes, if_neg hfx] at hlen
      have hexlen : (encodeVal f x).length = encSize f x :=
        encodeVal_length f x hv.1
      have hencB : (encodeVal f x).length < 2 ^ 32 := by
        have h1 : (encodeVal f x).length ≤ (tail.drop off).length := by
          rw [htail]
          simp
        rw [List.length_drop] at h1
        omega
      have hx : decodeVal f (encodeVal f x) = .ok x :=
        decode_encode f x hwf.1 hv.1 hencB
      cases hvo : varOffsets fr xr (off + encSize f x) with
      | nil =>
        obtain ⟨hd0, ht0⟩ := varOffsets_eq_nil hvo
        have hslice : tail.drop off = encodeVal f x := by
          rw [htail, ht0, List.append_nil]
        have htail' : tail.drop (off + encSize f x) = encTails fr xr := by
          rw [ht0, drop_add, hslice, ← hexlen, List.drop_length]
        have hrec := decodeDyn_enc fr xr tail (off + encSize f x) hwf.2 hv.2
          htail' (by omega) hB
        rw [hvo] at hrec
        rw [decodeDyn]
        simp only [hslice, hx, hrec]
      | cons o1 orest2 =>
        have ho1 : o1 = off + encSize f x := varOffsets_head hvo
        have hslice : (tail.drop off).take (o1 - off) = encodeVal f x := by
          rw [ho1, Nat.add_sub_cancel_left, htail]
          exact take_append_of_length hexlen
        have htail' : tail.drop (off + encSize f x) = encTails fr xr := by
          rw [drop_add, htail, drop_append_of_length hexlen]
        have hrec := decodeDyn_enc fr xr tail (off + encSize f x) hwf.2 hv.2
          htail' (by omega) hB
        rw [hvo] at hrec
        rw [decodeDyn]
        simp only [hslice, hx, hrec]

end

/-- C3 as amended: for every record schema over the generated kinds
(uints, bools, fixed and dynamic bytes, bitlists, vectors and lists of
fixed or variable elements, nested containers) and every value
satisfying the emitted bound checks — with bitlist fields holding
well-formed bitlists, as the decoder-side `ValidateBitlist` demands —
decoding with the modelled generated `UnmarshalSSZ` the byte string
produced by the modelled generated `MarshalSSZ` yields the original
value, provided that byte string is shorter than `2^32` bytes; past that
bound the emitted 4-byte offsets wrap and the roundtrip fails (see the
counterexample). -/
theorem unmarshal_marshal_roundtrip (f : Schema) (x : SVal)
    (hwf : f.swf = true) (hv : SVal.validB f x = true)
    (hlen : (encodeVal f x).length < 2 ^ 32) :
    decodeVal f (encodeVal f x) = .ok x :=
  decode_encode f x hwf hv hlen

/-- A record with a fixed field, dynamic bytes, a nested variable
container, a uint list, a bitlist, a byte-matrix vector, lists of fixed
and of variable elements, and a list of variable containers. -/
def rtSchema : Schema :=
  .container [.uint 8, .bytesD 32, .container [.bytesD 4], .listU 8 16,
    .bitList 10, .vec 2 (.bytesF 3), .listE 3 (.bytesF 2),
    .listE 4 (.bytesD 5), .listE 2 (.container [.uint 2, .bytesD 6])]

/-- A valid value of `rtSchema`. -/
def rtVal : SVal :=
  .container [.uint 513, .bytes [1, 2, 3], .container [.bytes [7]],
    .listU [5, 256], .bytes [5], .vals [.bytes [1, 2, 3], .bytes [4, 5, 6]],
    .vals [.bytes [1, 2]], .vals [.bytes [9], .bytes []],
    .vals [.container [.uint 300, .bytes [8, 8]]]]

/-- Witness for C3's amended theorem at a concrete record and value. -/
theorem unmarshal_marshal_roundtrip_witness :
    rtSchema.swf = true ∧ SVal.validB rtSchema rtVal = true ∧
      (encodeVal rtSchema rtVal).length < 2 ^ 32 ∧
      decodeVal rtSchema (encodeVal rtSchema rtVal) = .ok rtVal :=
  ⟨by decide, by decide, by decide,
    unmarshal_marshal_roundtrip rtSchema rtVal (by decide) (by decide) (by decide)⟩

/-- A container of two dynamic byte fields whose first tail pushes the
second offset to exactly `2^32`. -/
def wrapSchema : Schema := .container [.bytesD (2 ^ 32), .bytesD 8]

/-- A value of `wrapSchema` that passes every emitted bound check
(`len(buf) ≤ 2^32` and `len(buf) ≤ 8` on the two fields) and whose
encoding is exactly `2^32` bytes long. -/
def wrapVal : SVal :=
  .container [.bytes (List.replicate (2 ^ 32 - 8) 1), .bytes []]

/-- The wraparound behaviour over an abstract first tail of length
`2^32 - 8`: the value passes the emitted bound checks, yet the emitted
encoder writes the second offset `8 + (2^32 - 8) = 2^32` as `[0,0,0,0]`
and the emitted unmarshaller rejects the buffer with `ssz.ErrOffset`. -/
theorem wrap_general (bs : List Nat) (hlen : bs.length = 2 ^ 32 - 8)
    (hall : bs.all (· < 256) = true) :
    SVal.validB wrapSchema (.container [.bytes bs, .bytes []]) = true ∧
      decodeVal wrapSchema
          (encodeVal wrapSchema (.container [.bytes bs, .bytes []]))
        = .error .errOffset := by
  have hn0 : Schema.isFixedS (Schema.bytesD (2 ^ 32)) = false := rfl
  have hn1 : Schema.isFixedS (Schema.bytesD 8) = false := rfl
  have hfs : Schema.fixedSum [Schema.bytesD (2 ^ 32), Schema.bytesD 8]
      = 8 := by decide
  have hsum : 8 + (2 ^ 32 - 8) = 2 ^ 32 := by norm_num
  have t1 : toLE 4 8 = [8, 0, 0, 0] := by decide
  have t2 : toLE 4 (2 ^ 32) = [0, 0, 0, 0] := by decide
  constructor
  · simp only [wrapSchema, SVal.validB, SVal.validFields, Bool.and_eq_true]
    refine ⟨⟨?_, hall⟩, ⟨?_, ?_⟩, ?_⟩
    · rw [hlen]
      simp
    · simp
    · simp
    · trivial
  · have henc : encodeVal wrapSchema (.container [.bytes bs, .bytes []])
        = [8, 0, 0, 0] ++ ([0, 0, 0, 0] ++ bs) := by
      simp only [wrapSchema, encodeVal, encFixedParts, encTails, encSize,
        hn0, hn1, Bool.false_eq_true, if_false, hfs, hlen, hsum, t1, t2,
        List.append_nil, List.nil_append, List.append_assoc]
    have hBlen : ([8, 0, 0, 0] ++ ([0, 0, 0, 0] ++ bs)).length = 2 ^ 32 := by
      rw [List.length_append, List.length_append, hlen]
      simp only [List.length_cons, List.length_nil]
      omega
    have ho0 : fromLE ((([8, 0, 0, 0] ++ ([0, 0, 0, 0] ++ bs)).drop 0).take 4)
        = 8 := by
      rw [List.drop_zero,
        take_append_of_length (show ([8, 0, 0, 0] : List Nat).length = 4 from rfl)]
      decide
    have ho1 : fromLE ((([8, 0, 0, 0] ++ ([0, 0, 0, 0] ++ bs)).drop
        (0 + 4)).take 4) = 0 := by
      have hd : ([8, 0, 0, 0] ++ ([0, 0, 0, 0] ++ bs)).drop (0 + 4)
          = [0, 0, 0, 0] ++ bs :=
        drop_append_of_length
          (show ([8, 0, 0, 0] : List Nat).length = 0 + 4 from rfl)
      rw [hd,
        take_append_of_length (show ([0, 0, 0, 0] : List Nat).length = 4 from rfl)]
      decide
    have hzg : ∀ n : Nat, decide (0 > n) = false := by
      intro n
      simp
    have hro1 : readFixedPart [Schema.bytesD 8]
        ([8, 0, 0, 0] ++ ([0, 0, 0, 0] ++ bs)) (0 + 4) (some 8)
        = .error .errOffset := by
      rw [readFixedPart, if_neg (by rw [hn1]; exact Bool.false_ne_true), ho1,
        if_pos]
      rw [hzg]
      simp
    have h8len : decide (8 > ([8, 0, 0, 0] ++ ([0, 0, 0, 0] ++ bs)).length)
        = false := by
      rw [hBlen]
      decide
    have hro : readFixedPart [Schema.bytesD (2 ^ 32), Schema.bytesD 8]
        ([8, 0, 0, 0] ++ ([0, 0, 0, 0] ++ bs)) 0 none
        = .error .errOffset := by
      rw [readFixedPart, if_neg (by rw [hn0]; exact Bool.false_ne_true), ho0,
        if_neg (by rw [h8len]; simp), hro1]
    have hallf : Schema.allFixed [Schema.bytesD (2 ^ 32), Schema.bytesD 8]
        = false := rfl
    have hsz2 : ¬(([8, 0, 0, 0] ++ ([0, 0, 0, 0] ++ bs)).length
        < Schema.fixedSum [Schema.bytesD (2 ^ 32), Schema.bytesD 8]) := by
      rw [hBlen, hfs]
      norm_num
    rw [henc]
    simp only [wrapSchema]
    rw [decodeVal, hallf, if_neg Bool.false_ne_true, if_neg hsz2, hro]

/-- Counterexample to C3 as stated: `wrapVal` satisfies the emitted bound
checks, yet the emitted `ssz.WriteOffset` writes the second field's
offset `8 + (2^32 - 8) = 2^32` as the 4-byte little-endian string
`[0,0,0,0]`, so the emitted unmarshaller reads the offsets `8` and `0`
and phase A rejects its own encoder's output with `ssz.ErrOffset` —
`unmarshal(marshal(x))` is an error, not `x`. -/
theorem unmarshal_marshal_wraparound :
    wrapSchema.swf = true ∧ SVal.validB wrapSchema wrapVal = true ∧
      decodeVal wrapSchema (encodeVal wrapSchema wrapVal)
        = .error .errOffset := by
  have h := wrap_general (List.replicate (2 ^ 32 - 8) 1)
    (List.length_replicate _ _)
    (by
      rw [List.all_eq_true]
      intro b hb
      rw [List.mem_replicate] at hb
      simp [hb.2])
  exact ⟨by decide, h.1, h.2⟩

/-- The field list of the C2 witness: two dynamic-bytes fields around a
fixed uint. -/
def offsetsFs : List Schema := [.bytesD 5, .uint 2, .bytesD 5]

/-- A well-formed encoded buffer for `offsetsFs`: offsets 10 and 12, then
the two tails. -/
def offsetsBuf : List Nat := [10, 0, 0, 0, 7, 0, 12, 0, 0, 0, 1, 2, 9]

/-- Witness for C2 at a concrete container and buffer. -/
theorem umarshalContainer_offsets_witness :
    (readFixedPart offsetsFs offsetsBuf 0 none = .error .errOffset ↔
        hasViolation offsetsBuf.length none
          (readOffsetsFrom offsetsFs offsetsBuf 0) = true) ∧
      ∀ xs, decodeVal (.container offsetsFs) offsetsBuf = .ok xs →
        List.Chain' (· ≤ ·)
          (readOffsetsFrom offsetsFs offsetsBuf 0 ++ [offsetsBuf.length]) :=
  umarshalContainer_offsets offsetsFs offsetsBuf (by decide)

end Sszgen
